import Mathlib

/-!
Verification of the `json-node` library (a Rust in-memory JSON tree library):
data model, parser, serializer, ordered property map, and depth-first
traversal, embedded shallowly in Lean.

Modelling conventions:
* Rust `&str` / `String` values are modelled as `List Char` (`Str` below).
  Rust's byte-index slicing only occurs in the source at positions whose
  boundary characters are ASCII (`"`/`[`/`{`), so character slicing agrees
  with byte slicing on every path exercised here.
* Rust functions that can panic are modelled with the explicit result type
  `RustRes`: `.panicked` is a Rust panic, `.ret x` a normal return.
* Rust `i64` is modelled as `Int` together with the `i64` range checks that
  `str::parse::<i64>` performs.  Rust `f64` is modelled by `F64`: non-finite
  values are explicit constructors and finite values carry the exact decimal
  value of the parsed literal as a rational number (Rust stores the nearest
  binary double; the exact-decimal model is faithful for the distinctions
  and displays used in the theorems below, and this simplification is
  flagged where it matters).
* Recursive functions over input text take an explicit structural bound
  (`fuel`); every statement either fixes a sufficient bound
  (`length + 1`) or quantifies over all sufficient bounds, and a
  bound-irrelevance lemma is proved.
-/

abbrev Str := List Char

/-- Result of running a Rust function: either a panic or a returned value. -/
inductive RustRes (α : Type) where
  | panicked : RustRes α
  | ret : α → RustRes α
deriving DecidableEq

/-- Rust `char::is_whitespace` (the Unicode White_Space property),
used by `str::trim`. -/
def rustIsWhitespace (c : Char) : Bool :=
  let n := c.toNat
  n = 0x09 || n = 0x0A || n = 0x0B || n = 0x0C || n = 0x0D || n = 0x20 ||
  n = 0x85 || n = 0xA0 || n = 0x1680 || (0x2000 <= n && n <= 0x200A) ||
  n = 0x2028 || n = 0x2029 || n = 0x202F || n = 0x205F || n = 0x3000

/-- Rust `str::trim`: strip leading and trailing whitespace. -/
def trimChars (l : Str) : Str :=
  ((l.dropWhile rustIsWhitespace).reverse.dropWhile rustIsWhitespace).reverse

/-- Rust `u8::to_ascii_lowercase` lifted to `Char` (non-ASCII unchanged). -/
def toLowerAscii (c : Char) : Char :=
  if 'A' ≤ c ∧ c ≤ 'Z' then Char.ofNat (c.toNat + 32) else c

/-- Rust `str::eq_ignore_ascii_case`. -/
def eqIgnoreAsciiCase : Str → Str → Bool
  | [], [] => true
  | a :: xs, b :: ys => toLowerAscii a = toLowerAscii b && eqIgnoreAsciiCase xs ys
  | _, _ => false

/-- `s.replace(" ", "").replace("\t", "")` from the blank-interior checks of
`parse_array`/`parse_object` (removing all occurrences of a one-character
pattern is filtering that character out). -/
def removeSpacesTabs (l : Str) : Str :=
  l.filter (fun c => !(c = ' ' || c = '\t'))

def isDigitChar (c : Char) : Bool := '0' ≤ c && c ≤ '9'

def digitChar (n : Nat) : Char := Char.ofNat (48 + n)

def digitVal (c : Char) : Nat := c.toNat - 48

/-- Numeric value of a digit string (most significant digit first). -/
def digitsToNat (l : Str) : Nat :=
  l.foldl (fun acc c => acc * 10 + digitVal c) 0

/-- Decimal digits of `n`, with a structural bound so that the kernel can
evaluate it; `natRepr` instantiates the bound sufficiently. -/
def natReprAux : Nat → Nat → Str
  | 0, _ => []
  | fuel + 1, n => if n < 10 then [digitChar n] else natReprAux fuel (n / 10) ++ [digitChar (n % 10)]

/-- Decimal representation of a natural number (Rust `Display` for unsigned
integers). -/
def natRepr (n : Nat) : Str := natReprAux (n + 1) n

/-- Rust `i64::to_string`: minus sign for negatives followed by the decimal
digits of the magnitude. -/
def intRepr : Int → Str
  | .ofNat m => natRepr m
  | .negSucc m => '-' :: natRepr (m + 1)

/-- Rust `bool::to_string`. -/
def boolToString : Bool → Str
  | true => ['t', 'r', 'u', 'e']
  | false => ['f', 'a', 'l', 's', 'e']

/-- i64 range bounds used by `str::parse::<i64>`. -/
def i64Min : Int := -(2 ^ 63)

def i64Max : Int := 2 ^ 63 - 1

/-- Digit-string part of `str::parse::<i64>`: one or more ASCII digits and a
final range check (Rust checks overflow during accumulation; the result is
the same). -/
def parseI64Digits (ds : Str) (neg : Bool) : Option Int :=
  if ds = [] then none
  else if ds.all isDigitChar then
    let n : Int := digitsToNat ds
    if neg then (if -n < i64Min then none else some (-n))
    else (if i64Max < n then none else some n)
  else none

/-- Rust `str::parse::<i64>`: an optional leading sign, then digits. -/
def parseI64 : Str → Option Int
  | [] => parseI64Digits [] false
  | c :: cs =>
    if c = '+' then parseI64Digits cs false
    else if c = '-' then parseI64Digits cs true
    else parseI64Digits (c :: cs) false

/-- Model of a Rust `f64` value.  Finite values are represented by the exact
rational value of the decimal literal they were parsed from (Rust rounds to
the nearest binary double; this exact-decimal model keeps every distinction
the claims rely on). -/
inductive F64 where
  | finite : Rat → F64
  | inf : F64
  | neginf : F64
  | nan : F64
deriving DecidableEq

/-- Exponent suffix of the float grammar: empty, or `e`/`E`, optional sign,
one or more digits.  Rust applies arbitrarily large exponents without a
parse error (saturating the double); the exact model keeps the exponent. -/
def parseF64Exp : Str → Option Int
  | [] => some 0
  | e :: r =>
    if e = 'e' ∨ e = 'E' then
      match r with
      | '+' :: ds => if ds ≠ [] ∧ ds.all isDigitChar then some (digitsToNat ds) else none
      | '-' :: ds => if ds ≠ [] ∧ ds.all isDigitChar then some (-(digitsToNat ds : Int)) else none
      | ds => if ds ≠ [] ∧ ds.all isDigitChar then some (digitsToNat ds) else none
    else none

/-- Build the exact rational `±(intDigits.fracDigits) · 10^exp`. -/
def mkF64 (neg : Bool) (intPart fracPart : Str) (exp : Int) : F64 :=
  let mag : Int := digitsToNat intPart * 10 ^ fracPart.length + digitsToNat fracPart
  let num : Int := if neg then -mag else mag
  if 0 ≤ exp then .finite (mkRat (num * 10 ^ exp.toNat) (10 ^ fracPart.length))
  else .finite (mkRat num (10 ^ (fracPart.length + (-exp).toNat)))

/-- Unsigned part of Rust `str::parse::<f64>`: case-insensitive
`inf`/`infinity`/`nan`, or `Digit+ ('.' Digit*)? Exp?` or `'.' Digit+ Exp?`
(the grammar documented for `f64::from_str`). -/
def parseF64Unsigned (l : Str) (neg : Bool) : Option F64 :=
  if eqIgnoreAsciiCase l ['i', 'n', 'f'] || eqIgnoreAsciiCase l ['i', 'n', 'f', 'i', 'n', 'i', 't', 'y'] then
    some (if neg then .neginf else .inf)
  else if eqIgnoreAsciiCase l ['n', 'a', 'n'] then some .nan
  else
    let intPart := l.takeWhile isDigitChar
    let rest := l.dropWhile isDigitChar
    if rest.head? = some '.' then
      let r := rest.tail
      let fracPart := r.takeWhile isDigitChar
      let rest2 := r.dropWhile isDigitChar
      if intPart = [] ∧ fracPart = [] then none
      else
        match parseF64Exp rest2 with
        | some e => some (mkF64 neg intPart fracPart e)
        | none => none
    else
      if intPart = [] then none
      else
        match parseF64Exp rest with
        | some e => some (mkF64 neg intPart [] e)
        | none => none

/-- Rust `str::parse::<f64>`: an optional leading sign, then the unsigned
grammar. -/
def parseF64 : Str → Option F64
  | [] => parseF64Unsigned [] false
  | c :: cs =>
    if c = '+' then parseF64Unsigned cs false
    else if c = '-' then parseF64Unsigned cs true
    else parseF64Unsigned (c :: cs) false

/-- Smallest `k ≤ fuel` (searched upward from `start`) with `den ∣ 10^k`. -/
def denExpAux : Nat → Nat → Nat → Option Nat
  | 0, _, _ => none
  | fuel + 1, den, k => if den ∣ 10 ^ k then some k else denExpAux fuel den (k + 1)

/-- Smallest `k` with `den ∣ 10^k`, searched up to `den` steps (enough for
every denominator of the form `2^a·5^b`, which covers every value a decimal
literal can produce). -/
def denExp (den : Nat) : Option Nat := denExpAux (den + 1) den 0

/-- Zero-pad a digit string on the left to length `k`. -/
def padZeros (k : Nat) (ds : Str) : Str := List.replicate (k - ds.length) '0' ++ ds

/-- Decimal rendering of a non-integral rational with a `2^a·5^b`
denominator (`digits.digits` with no exponent).  The `none` fallback is
unreachable for values produced by parsing decimal text. -/
def ratDecimalRepr (q : Rat) : Str :=
  match denExp q.den with
  | none => ['0']
  | some k =>
    let m : Nat := q.num.natAbs * (10 ^ k / q.den)
    (if q.num < 0 then ['-'] else []) ++ natRepr (m / 10 ^ k) ++ '.' :: padZeros k (natRepr (m % 10 ^ k))

/-- Model of Rust `f64::to_string` (`Display`): shortest decimal form,
never exponent notation, and — decisive for the round-trip claim — an
integral value is printed with no `.0` suffix (`(1.0f64).to_string()` is
`"1"`).  Finite non-integral values print their exact decimal expansion,
which agrees with Rust on the short literals used in this file. -/
def floatToString : F64 → Str
  | .inf => ['i', 'n', 'f']
  | .neginf => ['-', 'i', 'n', 'f']
  | .nan => ['N', 'a', 'N']
  | .finite q => if q.den = 1 then intRepr q.num else ratDecimalRepr q

/-- `JsonValueType` from `src/models/json_value_type.rs` (the scalar payload
of the parser-facing `JsonNode::Value`; the flattened `JsonNode` of
`src/models/json_node.rs` carries the same five scalars inline and its
serializer arms produce identical text). -/
inductive JsonValueType where
  | String : Str → JsonValueType
  | Integer : Int → JsonValueType
  | Float : F64 → JsonValueType
  | Boolean : Bool → JsonValueType
  | Null : JsonValueType
deriving DecidableEq

mutual
/-- `JsonNode` (`src/models/json_node.rs` / the parser's target type):
Object holds the ordered property list (`JsonPropertyMap` /
`JsonPropertyDictionary`, both `Vec<(String, JsonNode)>`), Array an ordered
list of children, and scalars are `Value`. -/
inductive JsonNode where
  | Object : JsonProps → JsonNode
  | Array : JsonNodes → JsonNode
  | Value : JsonValueType → JsonNode
deriving DecidableEq
/-- `Vec<JsonNode>` (an Array's elements, in stored order). -/
inductive JsonNodes where
  | nil : JsonNodes
  | cons : JsonNode → JsonNodes → JsonNodes
deriving DecidableEq
/-- `Vec<(String, JsonNode)>` backing `JsonPropertyMap` /
`JsonPropertyDictionary`, in insertion order. -/
inductive JsonProps where
  | nil : JsonProps
  | cons : Str → JsonNode → JsonProps → JsonProps
deriving DecidableEq
end

def JsonNodes.length : JsonNodes → Nat
  | .nil => 0
  | .cons _ r => r.length + 1

def JsonProps.length : JsonProps → Nat
  | .nil => 0
  | .cons _ _ r => r.length + 1

def JsonNodes.toList : JsonNodes → List JsonNode
  | .nil => []
  | .cons t r => t :: r.toList

def JsonProps.toList : JsonProps → List (Str × JsonNode)
  | .nil => []
  | .cons k v r => (k, v) :: r.toList

/-- The merged error enum (`src/models/json_node_error.rs` contributes
`EmptyJsonNode`/`CouldntParseNode` used by the parser;
`src/errors/json_node_error.rs` contributes the property-map errors). -/
inductive JsonNodeError where
  | EmptyJsonNode : Option Str → JsonNodeError
  | CouldntParseNode : Str → JsonNodeError
  | MultiplePropertiesWithSameKey : Str → JsonNodeError
  | KeyNotFound : Str → JsonNodeError
deriving DecidableEq

mutual
/-- `JsonNode::to_json_string` (`src/models/json_node.rs`, lines 492-509):
scalars by their canonical text (strings quoted with no escaping), arrays by
joining child serializations with `,` inside `[` `]`, objects via
`JsonPropertyMap::to_json_string`. -/
def JsonNode.to_json_string : JsonNode → Str
  | .Value v => JsonValueType.to_json_string v
  | .Array ns => '[' :: JsonNodes.joined ns ++ [']']
  | .Object ps => (('{' :: JsonProps.entriesConcat ps).dropLast) ++ ['}']
/-- Scalar serialization (`JsonValueType::to_json_string`, and identically
the scalar arms of the flattened `JsonNode::to_json_string`). -/
def JsonValueType.to_json_string : JsonValueType → Str
  | .String s => '"' :: s ++ ['"']
  | .Integer n => intRepr n
  | .Float f => floatToString f
  | .Boolean b => boolToString b
  | .Null => ['n', 'u', 'l', 'l']
/-- `array.iter().map(to_json_string).collect::<Vec<_>>().join(",")`. -/
def JsonNodes.joined : JsonNodes → Str
  | .nil => []
  | .cons t .nil => JsonNode.to_json_string t
  | .cons t (.cons u r) => JsonNode.to_json_string t ++ ',' :: JsonNodes.joined (.cons u r)
/-- The loop body of `JsonPropertyMap::to_json_string`: each entry pushes
`"name":value,` (no space after the colon). -/
def JsonProps.entriesConcat : JsonProps → Str
  | .nil => []
  | .cons k v r => '"' :: k ++ '"' :: ':' :: (JsonNode.to_json_string v ++ ',' :: JsonProps.entriesConcat r)
/-- The loop body of `JsonPropertyDictionary::to_json_string`: each entry
pushes `"name": value,` (with a space after the colon). -/
def JsonProps.entriesConcatDict : JsonProps → Str
  | .nil => []
  | .cons k v r => '"' :: k ++ '"' :: ':' :: ' ' :: (JsonNode.to_json_string v ++ ',' :: JsonProps.entriesConcatDict r)
end

/-- `JsonPropertyMap::to_json_string` (`src/models/json_property_map.rs`,
lines 210-221): start from `"{"`, push `"name":value,` per entry, pop the
final character ("the trailing comma"), push `'}'`. -/
def JsonProps.to_json_string (ps : JsonProps) : Str :=
  (('{' :: JsonProps.entriesConcat ps).dropLast) ++ ['}']

/-- `JsonPropertyDictionary::to_json_string`
(`src/models/json_property_dictionary.rs`, lines 80-91): same pop-based
construction, with `"name": value,` entries. -/
def JsonProps.dict_to_json_string (ps : JsonProps) : Str :=
  (('{' :: JsonProps.entriesConcatDict ps).dropLast) ++ ['}']

/-- `JsonPropertyMap::contains_property` / `JsonPropertyDictionary::contains_key`:
linear scan for the name. -/
def JsonProps.contains_property : JsonProps → Str → Bool
  | .nil, _ => false
  | .cons k _ r, name => if k = name then true else r.contains_property name

/-- `Vec::push` of one `(name, node)` pair at the end. -/
def JsonProps.push (ps : JsonProps) (name : Str) (node : JsonNode) : JsonProps :=
  match ps with
  | .nil => .cons name node .nil
  | .cons k v r => .cons k v (r.push name node)

/-- `JsonPropertyMap::add` (`src/models/json_property_map.rs`, lines 100-106)
and the identical `JsonPropertyDictionary::add`: silently do nothing when the
name is already present, otherwise append. -/
def JsonProps.add (ps : JsonProps) (name : Str) (node : JsonNode) : JsonProps :=
  if ps.contains_property name then ps else ps.push name node

/-- `self.0.iter().filter(|(k, _)| k == name).count()`. -/
def JsonProps.countKey : JsonProps → Str → Nat
  | .nil, _ => 0
  | .cons k _ r, name => (if k = name then 1 else 0) + r.countKey name

/-- `self.0.iter().position(...)` followed by `Vec::remove` at that index:
remove the first matching entry and return it, or `none`. -/
def JsonProps.removeFirst : JsonProps → Str → Option (JsonNode × JsonProps)
  | .nil, _ => none
  | .cons k v r, name =>
    if k = name then some (v, r)
    else (r.removeFirst name).map (fun p => (p.1, .cons k v p.2))

/-- `JsonPropertyMap::remove` (`src/models/json_property_map.rs`, lines
128-137) and the identical `JsonPropertyDictionary::remove`, in state-passing
form (result, map after the call): error `MultiplePropertiesWithSameKey`
when more than one entry shares the name (checked first, before any
mutation), error `KeyNotFound` when none does, otherwise remove the first
match and return it. -/
def JsonProps.remove (ps : JsonProps) (name : Str) :
    Except JsonNodeError JsonNode × JsonProps :=
  if 1 < ps.countKey name then (.error (.MultiplePropertiesWithSameKey name), ps)
  else
    match ps.removeFirst name with
    | some (v, ps') => (.ok v, ps')
    | none => (.error (.KeyNotFound name), ps)

/-- The element/member scanning loop shared by `parse_array` and
`parse_object` (`src/parsing/json_parser.rs`): walk the characters keeping a
nesting level that `{`/`[` increment and `}`/`]` decrement (it may go
negative), cut at commas seen at level 0, trim each piece, and push the
final piece. -/
def splitGo : Str → List Str → Str → Int → List Str
  | [], elems, cur, _ => elems ++ [trimChars cur]
  | c :: cs, elems, cur, lvl =>
    if c = '{' ∨ c = '[' then splitGo cs elems (cur ++ [c]) (lvl + 1)
    else if c = '}' ∨ c = ']' then splitGo cs elems (cur ++ [c]) (lvl - 1)
    else if c = ',' ∧ lvl = 0 then splitGo cs (elems ++ [trimChars cur]) [] lvl
    else splitGo cs elems (cur ++ [c]) lvl

/-- Split a span at top-level commas (see `splitGo`). -/
def splitTopLevel (l : Str) : List Str := splitGo l [] [] 0

/-- Rust `str::split_once`: split at the first occurrence of the separator. -/
def splitOnce : Str → Char → Option (Str × Str)
  | [], _ => none
  | c :: cs, sep =>
    if c = sep then some ([], cs)
    else (splitOnce cs sep).map (fun p => (c :: p.1, p.2))

/-- `JsonNodeParser::parse_string`: trimmed span must start and end with a
double quote; the interior is taken verbatim (no escape decoding).  When the
trimmed span is the single character `"` both checks pass and the byte slice
`trim[1..0]` panics. -/
def parse_string (value : Str) : RustRes (Option JsonNode) :=
  let t := trimChars value
  if t = [] then .ret none
  else if t.head? = some '"' ∧ t.getLast? = some '"' then
    if 2 ≤ t.length then .ret (some (.Value (.String ((t.drop 1).dropLast))))
    else .panicked
  else .ret none

/-- `JsonNodeParser::parse_integer`: `trim.parse::<i64>()`. -/
def parse_integer (value : Str) : Option JsonNode :=
  let t := trimChars value
  if t = [] then none
  else (parseI64 t).map (fun n => .Value (.Integer n))

/-- `JsonNodeParser::parse_float`: `trim.parse::<f64>()`. -/
def parse_float (value : Str) : Option JsonNode :=
  let t := trimChars value
  if t = [] then none
  else (parseF64 t).map (fun f => .Value (.Float f))

/-- `JsonNodeParser::parse_boolean`: case-insensitive `true` / `false`. -/
def parse_boolean (value : Str) : Option JsonNode :=
  let t := trimChars value
  if t = [] then none
  else if eqIgnoreAsciiCase t ['t', 'r', 'u', 'e'] then some (.Value (.Boolean true))
  else if eqIgnoreAsciiCase t ['f', 'a', 'l', 's', 'e'] then some (.Value (.Boolean false))
  else none

/-- `JsonNodeParser::parse_null`: case-insensitive `null`. -/
def parse_null (value : Str) : Option JsonNode :=
  let t := trimChars value
  if t = [] then none
  else if eqIgnoreAsciiCase t ['n', 'u', 'l', 'l'] then some (.Value .Null)
  else none

/-- `JsonNodeParser::parse_value` (`src/parsing/json_parser.rs`, lines
28-50): try the scalar grammars in the fixed order string, integer, float,
boolean, null; the first success wins. -/
def parse_value (json : Str) : RustRes (Option JsonNode) :=
  match parse_string json with
  | .panicked => .panicked
  | .ret (some n) => .ret (some n)
  | .ret none =>
    match parse_integer json with
    | some n => .ret (some n)
    | none =>
      match parse_float json with
      | some n => .ret (some n)
      | none =>
        match parse_boolean json with
        | some n => .ret (some n)
        | none =>
          match parse_null json with
          | some n => .ret (some n)
          | none => .ret none

/-- The element loop of `parse_array`: every element is trimmed and parsed
(`elements.iter().map(trim).map(parse_node(_, Some(array)))` collects all
results first, so a panic anywhere in the list wins over an earlier error);
any error collapses the whole array to `none`. -/
def parseElems (p : Str → Option Str → RustRes (Except JsonNodeError JsonNode))
    (parent : Str) : List Str → RustRes (Option JsonNodes)
  | [] => .ret (some .nil)
  | e :: rest =>
    match p (trimChars e) (some parent), parseElems p parent rest with
    | .panicked, _ => .panicked
    | _, .panicked => .panicked
    | .ret (.error _), .ret _ => .ret none
    | .ret (.ok _), .ret none => .ret none
    | .ret (.ok n), .ret (some ns) => .ret (some (.cons n ns))

/-- `JsonNodeParser::parse_array` (`src/parsing/json_parser.rs`, lines
125-181), with the recursive `parse_node` call passed in as `p`: trimmed
span must start `[` and end `]`; a blank interior (after removing spaces and
tabs) yields the empty array; otherwise split the interior at level-0 commas
and parse every element, failing as a whole (`none`) if any element fails. -/
def parse_arrayCore (p : Str → Option Str → RustRes (Except JsonNodeError JsonNode))
    (array : Str) : RustRes (Option JsonNode) :=
  let t := trimChars array
  if t = [] then .ret none
  else if t.head? = some '[' ∧ t.getLast? = some ']' then
    let no_brackets := trimChars ((t.drop 1).dropLast)
    if removeSpacesTabs no_brackets = [] then .ret (some (.Array .nil))
    else
      match parseElems p array (splitTopLevel no_brackets) with
      | .panicked => .panicked
      | .ret none => .ret none
      | .ret (some ns) => .ret (some (.Array ns))
  else .ret none

/-- The member loop of `parse_object`: each trimmed member is split at its
first colon (`split_once(':').unwrap()` — a member with no colon panics),
the name part has its first and last character stripped unchecked
(`&key[1..key.len() - 1]` — a name part shorter than two characters
panics), the value part is parsed recursively, and the later
`kvps.map(|(k, p)| (k, p.unwrap()))` turns any member whose value failed to
parse into a panic as well. -/
def parseMembers (p : Str → Option Str → RustRes (Except JsonNodeError JsonNode))
    (parent : Str) : List Str → RustRes JsonProps
  | [] => .ret .nil
  | m :: rest =>
    match splitOnce (trimChars m) ':' with
    | none => .panicked
    | some (key, value) =>
      if key.length < 2 then .panicked
      else
        match p value (some parent), parseMembers p parent rest with
        | .panicked, _ => .panicked
        | _, .panicked => .panicked
        | .ret (.error _), .ret _ => .panicked
        | .ret (.ok n), .ret ps => .ret (.cons ((key.drop 1).dropLast) n ps)

/-- `JsonNodeParser::parse_object` (`src/parsing/json_parser.rs`, lines
183-235), with the recursive `parse_node` call passed in as `p`: trimmed
span must start `{` and end `}`; blank interior yields an empty property
dictionary; otherwise split the interior at level-0 commas into members and
process them with `parseMembers` (whose unwraps panic on any malformed
member). -/
def parse_objectCore (p : Str → Option Str → RustRes (Except JsonNodeError JsonNode))
    (object : Str) : RustRes (Option JsonNode) :=
  let t := trimChars object
  if t = [] then .ret none
  else if t.head? = some '{' ∧ t.getLast? = some '}' then
    let no_braces := trimChars ((t.drop 1).dropLast)
    if removeSpacesTabs no_braces = [] then .ret (some (.Object .nil))
    else
      match parseMembers p object (splitTopLevel no_braces) with
      | .panicked => .panicked
      | .ret ps => .ret (some (.Object ps))
  else .ret none

/-- `JsonNodeParser::parse_node` (`src/parsing/json_parser.rs`, lines 6-26):
empty-after-trim input is `EmptyJsonNode(parent)`; otherwise try
`parse_value`, `parse_array`, `parse_object` on the original (untrimmed)
span in that order, and fall through to `CouldntParseNode` with the whole
span.  The structural bound only pays for recursion into strictly shorter
substrings; any bound above the input length gives the function's value
(`parse_nodeF_irrel` below), and the bound-exhausted branch is unreachable
from `parse_node`. -/
def parse_nodeF : Nat → Str → Option Str → RustRes (Except JsonNodeError JsonNode)
  | 0, _, _ => .panicked
  | b + 1, json, parent =>
    if trimChars json = [] then .ret (.error (.EmptyJsonNode parent))
    else
      match parse_value json with
      | .panicked => .panicked
      | .ret (some n) => .ret (.ok n)
      | .ret none =>
        match parse_arrayCore (fun e q => parse_nodeF b e q) json with
        | .panicked => .panicked
        | .ret (some n) => .ret (.ok n)
        | .ret none =>
          match parse_objectCore (fun e q => parse_nodeF b e q) json with
          | .panicked => .panicked
          | .ret (some n) => .ret (.ok n)
          | .ret none => .ret (.error (.CouldntParseNode json))

/-- `parse_node` with its always-sufficient bound. -/
def parse_node (json : Str) (parent : Option Str) :
    RustRes (Except JsonNodeError JsonNode) :=
  parse_nodeF (json.length + 1) json parent

/-- `JsonNode::parse` (`src/models/json_node.rs`, line 41): the public entry
point, no parent context. -/
def JsonNode.parse (json : Str) : RustRes (Except JsonNodeError JsonNode) :=
  parse_node json none

/-- The iterator state of `Iter<'a>` (`src/models/json_node.rs`, lines
554-559): the borrowed node, the array/object cursors, and the boxed child
iterator currently being drained. -/
inductive Iter where
  | mk : Option JsonNode → Option Nat → Option Nat → Option Iter → Iter

/-- `IntoIterator for &JsonNode` (`src/models/json_node.rs`, lines 544-551):
a fresh iterator over the tree. -/
def JsonNode.into_iter (t : JsonNode) : Iter := .mk (some t) none none none

def JsonNodes.get? : JsonNodes → Nat → Option JsonNode
  | .nil, _ => none
  | .cons t _, 0 => some t
  | .cons _ r, i + 1 => r.get? i

def JsonProps.get? : JsonProps → Nat → Option (Str × JsonNode)
  | .nil, _ => none
  | .cons k v _, 0 => some (k, v)
  | .cons _ _ r, i + 1 => r.get? i

/-- `self.array_index = None; self.node = None` (array branches). -/
def Iter.clearArray : Iter → Iter
  | .mk _ _ oi child => .mk none none oi child

/-- `self.object_index = None; self.node = None` (object `Some` branch). -/
def Iter.clearObject : Iter → Iter
  | .mk _ ai _ child => .mk none ai none child

/-- `self.object_index = None` only (object `None` branch with a single
property: the source resets the cursor but — unlike the array branch — does
not clear `self.node`). -/
def Iter.resetObjectIndex : Iter → Iter
  | .mk node ai _ child => .mk node ai none child

/-- The part of `Iter::next` after the child-draining step (`self.child` is
`None` here); `nf` is the recursive `self.next()` call.  Mirrors
`src/models/json_node.rs`, lines 573-640: a missing node ends the iteration;
an array/object advances its cursor, installs a fresh child iterator over
the next element (indexing panics when the vector is empty or exhausted),
recurses, and afterwards applies the branch's cursor/node clears; any other
node is a scalar, yielded once. -/
def Iter.nextCore (nf : Iter → Option (RustRes (Option JsonNode × Iter)))
    (node : Option JsonNode) (ai oi : Option Nat) :
    Option (RustRes (Option JsonNode × Iter)) :=
  match node with
  | none => some (.ret (none, .mk none ai oi none))
  | some t =>
    match t with
    | .Array ns =>
      match ai with
      | some i =>
        match ns.get? (i + 1) with
        | none => some .panicked
        | some sub =>
          match nf (.mk (some t) (some (i + 1)) oi (some sub.into_iter)) with
          | none => none
          | some .panicked => some .panicked
          | some (.ret (x, st)) =>
            if i + 1 = ns.length - 1 then some (.ret (x, st.clearArray))
            else some (.ret (x, st))
      | none =>
        match ns.get? 0 with
        | none => some .panicked
        | some sub =>
          match nf (.mk (some t) (some 0) oi (some sub.into_iter)) with
          | none => none
          | some .panicked => some .panicked
          | some (.ret (x, st)) =>
            if ns.length = 1 then some (.ret (x, st.clearArray))
            else some (.ret (x, st))
    | .Object ps =>
      match oi with
      | some i =>
        match ps.get? (i + 1) with
        | none => some .panicked
        | some sub =>
          match nf (.mk (some t) ai (some (i + 1)) (some sub.2.into_iter)) with
          | none => none
          | some .panicked => some .panicked
          | some (.ret (x, st)) =>
            if i + 1 = ps.length - 1 then some (.ret (x, st.clearObject))
            else some (.ret (x, st))
      | none =>
        match ps.get? 0 with
        | none => some .panicked
        | some sub =>
          match nf (.mk (some t) ai (some 0) (some sub.2.into_iter)) with
          | none => none
          | some .panicked => some .panicked
          | some (.ret (x, st)) =>
            if ps.length = 1 then some (.ret (x, st.resetObjectIndex))
            else some (.ret (x, st))
    | _ => some (.ret (some t, .mk none ai oi none))

/-- `Iter::next` (`src/models/json_node.rs`, lines 564-641): drain the child
iterator first, drop it when exhausted, then run the node dispatch
(`Iter.nextCore`).  The `Nat` argument is a structural bound on the nested
`self.next()` recursion (Rust recurses on the call stack); `none` means the
bound ran out and never occurs once the bound exceeds the tree size, as the
theorems below establish where needed. -/
def Iter.nextF : Nat → Iter → Option (RustRes (Option JsonNode × Iter))
  | 0, _ => none
  | f + 1, .mk node ai oi child =>
    match child with
    | some c =>
      match Iter.nextF f c with
      | none => none
      | some .panicked => some .panicked
      | some (.ret (some x, c')) => some (.ret (some x, .mk node ai oi (some c')))
      | some (.ret (none, _)) => Iter.nextCore (fun it => Iter.nextF f it) node ai oi
    | none => Iter.nextCore (fun it => Iter.nextF f it) node ai oi

/-- First two items yielded by an iterator (given enough of the structural
bound): drive `Iter.nextF` twice. -/
def Iter.firstTwoF (f : Nat) (it : Iter) : Option (Option JsonNode × Option JsonNode) :=
  match Iter.nextF f it with
  | some (.ret (a, it')) =>
    match Iter.nextF f it' with
    | some (.ret (b, _)) => some (a, b)
    | _ => none
  | _ => none

/-- `Iter.nextF` returns `out` and moves to `it'` for every sufficiently
large structural bound. -/
def NextIs (it : Iter) (out : Option JsonNode) (it' : Iter) : Prop :=
  ∃ f, Iter.nextF f it = some (.ret (out, it'))

/-- The iterator emits exactly the given items, in order, moving between the
given states. -/
inductive Emits : Iter → List JsonNode → Iter → Prop where
  | nil (it : Iter) : Emits it [] it
  | cons {it it' it'' : Iter} {x : JsonNode} {xs : List JsonNode} :
      NextIs it (some x) it' → Emits it' xs it'' → Emits it (x :: xs) it''

/-- The iterator yields exactly `xs` and then reports the end of iteration. -/
def IterDone (it : Iter) (xs : List JsonNode) : Prop :=
  ∃ itE itF, Emits it xs itE ∧ NextIs itE none itF

mutual
/-- The scalar leaves of a tree in depth-first order (array elements and
object property values in stored order). -/
def JsonNode.leaves : JsonNode → List JsonNode
  | .Value v => [.Value v]
  | .Array ns => JsonNodes.leavesElems ns
  | .Object ps => JsonProps.leavesProps ps
def JsonNodes.leavesElems : JsonNodes → List JsonNode
  | .nil => []
  | .cons t r => JsonNode.leaves t ++ JsonNodes.leavesElems r
def JsonProps.leavesProps : JsonProps → List JsonNode
  | .nil => []
  | .cons _ v r => JsonNode.leaves v ++ JsonProps.leavesProps r
end

mutual
/-- Trees on which `Iter::next` is well-behaved: every array is nonempty
(indexing `nodes[0]` panics on an empty array) and every object has at
least two properties (a single-property object never clears `self.node`
and repeats forever; an empty one panics on `properties[0]`). -/
def iterOk : JsonNode → Bool
  | .Value _ => true
  | .Array .nil => false
  | .Array (.cons t r) => iterOk t && iterOkElems r
  | .Object .nil => false
  | .Object (.cons _ _ .nil) => false
  | .Object (.cons _ v r) => iterOk v && iterOkProps r
def iterOkElems : JsonNodes → Bool
  | .nil => true
  | .cons t r => iterOk t && iterOkElems r
def iterOkProps : JsonProps → Bool
  | .nil => true
  | .cons _ v r => iterOk v && iterOkProps r
end

/-- No quotes, commas, colons, braces or brackets (the claim's
"non-escaping input" condition on string values and property names). -/
def validStr (s : Str) : Bool :=
  s.all (fun c => !(c = '"' || c = ',' || c = ':' || c = '{' || c = '}' || c = '[' || c = ']'))

mutual
/-- A tree "built purely from valid, non-escaping input": string values and
property names contain no structural characters, and integers are in the
`i64` range (payloads of parsed input always are).  Float payloads carry no
extra condition here; any finite payload such as `1` arises from valid
input like `1.0`. -/
def validNode : JsonNode → Bool
  | .Value (.String s) => validStr s
  | .Value (.Integer n) => decide (i64Min ≤ n) && decide (n ≤ i64Max)
  | .Value _ => true
  | .Array ns => validElems ns
  | .Object ps => validProps ps
def validElems : JsonNodes → Bool
  | .nil => true
  | .cons t r => validNode t && validElems r
def validProps : JsonProps → Bool
  | .nil => true
  | .cons k v r => validStr k && validNode v && validProps r
end

mutual
/-- No `Float` leaf anywhere in the tree. -/
def noFloat : JsonNode → Bool
  | .Value (.Float _) => false
  | .Value _ => true
  | .Array ns => noFloatElems ns
  | .Object ps => noFloatProps ps
def noFloatElems : JsonNodes → Bool
  | .nil => true
  | .cons t r => noFloat t && noFloatElems r
def noFloatProps : JsonProps → Bool
  | .nil => true
  | .cons _ v r => noFloat v && noFloatProps r
end

mutual
/-- No empty `Object` node anywhere in the tree. -/
def noEmptyObject : JsonNode → Bool
  | .Value _ => true
  | .Array ns => noEmptyObjectElems ns
  | .Object .nil => false
  | .Object ps => noEmptyObjectProps ps
def noEmptyObjectElems : JsonNodes → Bool
  | .nil => true
  | .cons t r => noEmptyObject t && noEmptyObjectElems r
def noEmptyObjectProps : JsonProps → Bool
  | .nil => true
  | .cons _ v r => noEmptyObject v && noEmptyObjectProps r
end

def JsonNodes.drop : JsonNodes → Nat → JsonNodes
  | ns, 0 => ns
  | .nil, _ + 1 => .nil
  | .cons _ r, j + 1 => r.drop j

def JsonProps.drop : JsonProps → Nat → JsonProps
  | ps, 0 => ps
  | .nil, _ + 1 => .nil
  | .cons _ _ r, j + 1 => r.drop j

/-- The node dispatch `Iter.nextCore` yields `out` and state `st` for every
sufficiently large bound on the recursive call. -/
def CoreIs (node : Option JsonNode) (ai oi : Option Nat) (out : Option JsonNode)
    (st : Iter) : Prop :=
  ∃ f0, ∀ f, f0 ≤ f →
    Iter.nextCore (fun it => Iter.nextF f it) node ai oi = some (.ret (out, st))

/-- Net nesting-level change of a span under the splitter's level rules
(`{`/`[` up, `}`/`]` down). -/
def deltaChars : Str → Int
  | [] => 0
  | c :: cs =>
    (if c = '{' ∨ c = '[' then 1 else if c = '}' ∨ c = ']' then -1 else 0) + deltaChars cs

/-- Scanning a span from level `lvl` with the splitter's level rules never
meets a comma at level 0 (so the splitter cuts nowhere inside it). -/
def noTopComma : Str → Int → Bool
  | [], _ => true
  | c :: cs, lvl =>
    if c = '{' ∨ c = '[' then noTopComma cs (lvl + 1)
    else if c = '}' ∨ c = ']' then noTopComma cs (lvl - 1)
    else if c = ',' ∧ lvl = 0 then false
    else noTopComma cs lvl

/-- `Vec::join(",")`. -/
def joinComma : List Str → Str
  | [] => []
  | [s] => s
  | s :: rest => s ++ ',' :: joinComma rest

/-- One serialized object member, `"name":value` (no space). -/
def memberStr (kv : Str × JsonNode) : Str :=
  '"' :: kv.1 ++ '"' :: ':' :: kv.2.to_json_string

/-- The comma-joined entry list of `JsonPropertyMap::to_json_string`
(what the brace-wrapped result contains for a nonempty map). -/
def JsonProps.entriesJoin : JsonProps → Str
  | .nil => []
  | .cons k v .nil => memberStr (k, v)
  | .cons k v r => memberStr (k, v) ++ ',' :: JsonProps.entriesJoin r

/-- Characters that neither change the splitter's nesting level nor split:
everything except braces, brackets and the comma. -/
def neutralChar (c : Char) : Bool :=
  !(c = '{' || c = '}' || c = '[' || c = ']' || c = ',')

/-- The parse result is a returned error (not a success, not a panic). -/
def isParseError : RustRes (Except JsonNodeError JsonNode) → Bool
  | .ret (.error _) => true
  | _ => false

/-- Shape of a serialized tree as the splitter sees it: nonempty, zero net
nesting change, no level-0 comma when scanned from any nonnegative level,
and no leading or trailing whitespace character (so `str::trim` is the
identity on it). -/
def goodSerial (s : Str) : Prop :=
  s ≠ [] ∧ deltaChars s = 0 ∧ (∀ lvl : Int, 0 ≤ lvl → noTopComma s lvl = true) ∧
  (∀ c ∈ s.head?, rustIsWhitespace c = false) ∧
  (∀ c ∈ s.getLast?, rustIsWhitespace c = false)

/-- A concrete nested tree used to exercise the round-trip: the value of
`{"a":[1,"x",true,null],"b":{"c":-5,"d":[2]}}`. -/
def sampleTree : JsonNode :=
  .Object (.cons ['a']
    (.Array (.cons (.Value (.Integer 1)) (.cons (.Value (.String ['x']))
      (.cons (.Value (.Boolean true)) (.cons (.Value .Null) .nil)))))
    (.cons ['b']
      (.Object (.cons ['c'] (.Value (.Integer (-5)))
        (.cons ['d'] (.Array (.cons (.Value (.Integer 2)) .nil)) .nil)))
      .nil))

deriving instance DecidableEq for Except

/-- Spine induction for `JsonProps` (the `induction` tactic cannot handle
the mutual recursor directly). -/
theorem JsonProps.spineInductionP {P : JsonProps → Prop} (h0 : P .nil)
    (h1 : ∀ k v r, P r → P (.cons k v r)) : ∀ ps, P ps
  | .nil => h0
  | .cons k v r => h1 k v r (JsonProps.spineInductionP h0 h1 r)

/-- Spine induction for `JsonNodes`. -/
theorem JsonNodes.spineInduction {P : JsonNodes → Prop} (h0 : P .nil)
    (h1 : ∀ t r, P r → P (.cons t r)) : ∀ ns, P ns
  | .nil => h0
  | .cons t r => h1 t r (JsonNodes.spineInduction h0 h1 r)

theorem JsonProps.contains_push_self (m : JsonProps) (k : Str) (v : JsonNode) :
    (m.push k v).contains_property k = true := by
  induction m using JsonProps.spineInductionP with
  | h0 => simp [JsonProps.push, JsonProps.contains_property]
  | h1 k' v' r ih =>
    by_cases h : k' = k <;> simp [JsonProps.push, JsonProps.contains_property, h, ih]

theorem JsonProps.add_of_contains (m : JsonProps) (k : Str) (v : JsonNode)
    (h : m.contains_property k = true) : m.add k v = m := by
  simp [JsonProps.add, h]

theorem JsonProps.add_of_not_contains (m : JsonProps) (k : Str) (v : JsonNode)
    (h : m.contains_property k = false) : m.add k v = m.push k v := by
  simp [JsonProps.add, h]

theorem JsonProps.toList_push (m : JsonProps) (k : Str) (v : JsonNode) :
    (m.push k v).toList = m.toList ++ [(k, v)] := by
  induction m using JsonProps.spineInductionP with
  | h0 => simp [JsonProps.push, JsonProps.toList]
  | h1 k' v' r ih => simp [JsonProps.push, JsonProps.toList, ih]

theorem JsonProps.filter_toList_of_not_contains (m : JsonProps) (k : Str)
    (h : m.contains_property k = false) :
    m.toList.filter (fun e => decide (e.1 = k)) = [] := by
  induction m using JsonProps.spineInductionP with
  | h0 => simp [JsonProps.toList]
  | h1 k' v' r ih =>
    by_cases hk : k' = k
    · simp [JsonProps.contains_property, hk] at h
    · simp [JsonProps.contains_property, hk] at h
      simp [JsonProps.toList, hk, ih h]

theorem JsonProps.removeFirst_eq_none_iff (m : JsonProps) (k : Str) :
    m.removeFirst k = none ↔ m.countKey k = 0 := by
  induction m using JsonProps.spineInductionP with
  | h0 => simp [JsonProps.removeFirst, JsonProps.countKey]
  | h1 k' v' r ih =>
    by_cases hk : k' = k
    · simp [JsonProps.removeFirst, JsonProps.countKey, hk]
    · simp [JsonProps.removeFirst, JsonProps.countKey, hk, ih]

theorem JsonProps.removeFirst_spec (m : JsonProps) (k : Str) (v : JsonNode)
    (m' : JsonProps) (h : m.removeFirst k = some (v, m')) :
    ∃ l1 l2, m.toList = l1 ++ (k, v) :: l2 ∧ m'.toList = l1 ++ l2 ∧
      ∀ e ∈ l1, e.1 ≠ k := by
  induction m using JsonProps.spineInductionP generalizing v m' with
  | h0 => simp [JsonProps.removeFirst] at h
  | h1 k' v' r ih =>
    by_cases hk : k' = k
    · rw [JsonProps.removeFirst, if_pos hk] at h
      simp only [Option.some.injEq, Prod.mk.injEq] at h
      obtain ⟨hv, hm⟩ := h
      subst hk hv hm
      exact ⟨[], r.toList, by simp [JsonProps.toList], by simp, by simp⟩
    · rw [JsonProps.removeFirst, if_neg hk] at h
      match hr : r.removeFirst k with
      | none => rw [hr] at h; simp [Option.map] at h
      | some (w, r') =>
        rw [hr] at h
        simp only [Option.map_some', Option.some.injEq, Prod.mk.injEq] at h
        obtain ⟨hv, hm⟩ := h
        obtain ⟨l1, l2, hl, hl', hne⟩ := ih w r' hr
        subst hv
        refine ⟨(k', v') :: l1, l2, by simp [JsonProps.toList, hl], ?_, ?_⟩
        · rw [← hm]; simp [JsonProps.toList, hl']
        · intro e he
          rcases List.mem_cons.mp he with h1 | h1
          · subst h1; exact hk
          · exact hne e h1

/-- Claim C7: first-write-wins insertion — on a map not containing `name`,
`add(name, v1)` then `add(name, v2)` leaves the map as the original with a
single appended entry `(name, v1)` (so exactly one entry for `name`, whose
value is `v1`), and `add` with an already-present name is a silent no-op. -/
theorem c7_add_first_write_wins (m : JsonProps) (name : Str) (v1 v2 : JsonNode)
    (h : m.contains_property name = false) :
    ((m.add name v1).add name v2) = m.push name v1 ∧
    (((m.add name v1).add name v2).toList.filter (fun e => decide (e.1 = name)))
      = [(name, v1)] ∧
    (∀ (m0 : JsonProps) (v : JsonNode), m0.contains_property name = true →
      m0.add name v = m0) := by
  have h1 : m.add name v1 = m.push name v1 := JsonProps.add_of_not_contains m name v1 h
  have h2 : ((m.add name v1).add name v2) = m.push name v1 := by
    rw [h1]
    exact JsonProps.add_of_contains _ name v2 (JsonProps.contains_push_self m name v1)
  refine ⟨h2, ?_, fun m0 v hc => JsonProps.add_of_contains m0 name v hc⟩
  rw [h2, JsonProps.toList_push, List.filter_append,
    JsonProps.filter_toList_of_not_contains m name h]
  simp

/-- Witness for C7 at a concrete map. -/
theorem c7_add_first_write_wins_witness :
    (JsonProps.contains_property (.cons ['b'] (.Value .Null) .nil) ['a'] = false) ∧
    (((JsonProps.cons ['b'] (.Value .Null) .nil).add ['a'] (.Value (.Integer 1))).add
        ['a'] (.Value (.Integer 2))
      = (JsonProps.cons ['b'] (.Value .Null) .nil).push ['a'] (.Value (.Integer 1)) ∧
    ((((JsonProps.cons ['b'] (.Value .Null) .nil).add ['a'] (.Value (.Integer 1))).add
        ['a'] (.Value (.Integer 2))).toList.filter (fun e => decide (e.1 = ['a'])))
      = [(['a'], .Value (.Integer 1))] ∧
    (∀ (m0 : JsonProps) (v : JsonNode), m0.contains_property ['a'] = true →
      m0.add ['a'] v = m0)) :=
  ⟨by decide,
   c7_add_first_write_wins (.cons ['b'] (.Value .Null) .nil) ['a']
     (.Value (.Integer 1)) (.Value (.Integer 2)) (by decide)⟩

/-- Claim C8: removal tri-state — `remove(name)` fails with
`MultiplePropertiesWithSameKey` when several entries share the name, fails
with `KeyNotFound` when none matches (in both cases the map is returned
unchanged; the empty map always has count zero), and with a unique match it
removes exactly that entry and returns its node. -/
theorem c8_remove_tristate (m : JsonProps) (name : Str) :
    (1 < m.countKey name →
      m.remove name = (.error (.MultiplePropertiesWithSameKey name), m)) ∧
    (m.countKey name = 0 →
      m.remove name = (.error (.KeyNotFound name), m)) ∧
    (m.countKey name = 1 →
      ∃ v l1 l2, m.toList = l1 ++ (name, v) :: l2 ∧ (∀ e ∈ l1, e.1 ≠ name) ∧
        (m.remove name).1 = .ok v ∧ (m.remove name).2.toList = l1 ++ l2) := by
  refine ⟨fun h => by simp [JsonProps.remove, h], fun h => ?_, fun h => ?_⟩
  · have hn : m.removeFirst name = none := (JsonProps.removeFirst_eq_none_iff m name).mpr h
    simp [JsonProps.remove, h, hn]
  · have hlt : ¬ 1 < m.countKey name := by omega
    match hr : m.removeFirst name with
    | none =>
      have := (JsonProps.removeFirst_eq_none_iff m name).mp hr
      omega
    | some (v, m') =>
      obtain ⟨l1, l2, hl, hl', hne⟩ := JsonProps.removeFirst_spec m name v m' hr
      exact ⟨v, l1, l2, hl, hne, by simp [JsonProps.remove, hlt, hr],
        by simp [JsonProps.remove, hlt, hr, hl']⟩

/-- Witness for C8 at three concrete maps (duplicate names, empty map,
unique match). -/
theorem c8_remove_tristate_witness :
    ((JsonProps.cons ['a'] (.Value .Null) (.cons ['a'] (.Value .Null) .nil)).remove ['a']
      = (.error (.MultiplePropertiesWithSameKey ['a']),
         .cons ['a'] (.Value .Null) (.cons ['a'] (.Value .Null) .nil))) ∧
    (JsonProps.nil.remove ['a'] = (.error (.KeyNotFound ['a']), .nil)) ∧
    (∃ v l1 l2,
      (JsonProps.cons ['a'] (.Value (.Integer 7)) .nil).toList = l1 ++ (['a'], v) :: l2 ∧
      (∀ e ∈ l1, e.1 ≠ ['a']) ∧
      ((JsonProps.cons ['a'] (.Value (.Integer 7)) .nil).remove ['a']).1 = .ok v ∧
      ((JsonProps.cons ['a'] (.Value (.Integer 7)) .nil).remove ['a']).2.toList = l1 ++ l2) :=
  ⟨(c8_remove_tristate _ ['a']).1 (by decide),
   (c8_remove_tristate .nil ['a']).2.1 (by decide),
   (c8_remove_tristate _ ['a']).2.2 (by decide)⟩

/-- Claim C10: removal atomicity — whenever `remove` returns an error
(duplicate name or not found), the map after the call is exactly the map
before it (the duplicate check precedes any mutation in the source). -/
theorem c10_remove_error_preserves_map (m : JsonProps) (name : Str)
    (e : JsonNodeError) (h : (m.remove name).1 = .error e) :
    (m.remove name).2 = m := by
  by_cases hlt : 1 < m.countKey name
  · simp [JsonProps.remove, hlt]
  · match hr : m.removeFirst name with
    | none => simp [JsonProps.remove, hlt, hr]
    | some (v, m') => simp [JsonProps.remove, hlt, hr] at h

/-- Witness for C10 at a concrete erroring removal. -/
theorem c10_remove_error_preserves_map_witness :
    ((JsonProps.nil.remove ['x']).1 = .error (.KeyNotFound ['x'])) ∧
    (JsonProps.nil.remove ['x']).2 = .nil :=
  ⟨by decide, c10_remove_error_preserves_map .nil ['x'] (.KeyNotFound ['x']) (by decide)⟩

/-- Claim C2 (code bug): `to_json_string` on the empty property map — both
the `JsonPropertyMap` and the `JsonPropertyDictionary` version — returns the
single character `}` rather than the claimed `{}`: the unconditional
`result.pop()` ("pops the trailing comma") removes the opening brace when
the entry loop contributed nothing. -/
theorem c2_empty_map_serialization_bug :
    JsonProps.to_json_string .nil = ['}'] ∧
    JsonProps.dict_to_json_string .nil = ['}'] :=
  ⟨rfl, rfl⟩

/-- Claim C3 (code bug): a member whose value part is unparsable makes the
object parse panic instead of failing with an error: the member list is
built with `parse_node(..).ok()` and then force-`unwrap`ped, so for
`{"a":!}` (the value `!` parses to an error) both the object grammar and the
whole `parse` panic, returning nothing to the caller. -/
theorem c3_object_member_failure_panics :
    JsonNode.parse ( "\x7b\"a\":!\x7d".data) = .panicked ∧
    parse_objectCore (fun e q => parse_node e q) ( "\x7b\"a\":!\x7d".data) = .panicked :=
  ⟨by decide, by decide⟩

theorem dropWhile_eq_self_of_head (l : Str)
    (h : ∀ c ∈ l.head?, rustIsWhitespace c = false) :
    l.dropWhile rustIsWhitespace = l := by
  cases l with
  | nil => rfl
  | cons c cs => simp [List.dropWhile_cons, h c (by simp)]

theorem trimChars_eq_self (l : Str)
    (h1 : ∀ c ∈ l.head?, rustIsWhitespace c = false)
    (h2 : ∀ c ∈ l.getLast?, rustIsWhitespace c = false) :
    trimChars l = l := by
  unfold trimChars
  rw [dropWhile_eq_self_of_head l h1,
    dropWhile_eq_self_of_head l.reverse (by simpa using h2), List.reverse_reverse]

/-- Claim C5: `parse_node` returns the `EmptyJsonNode` error — carrying
exactly the supplied parent context — if and only if the input is empty or
whitespace-only after trimming.  (Nested empty spans inside arrays/objects
never surface this error: their results pass through `.ok()`.) -/
theorem c5_empty_input_iff (s : Str) (parent c : Option Str) :
    parse_node s parent = .ret (.error (.EmptyJsonNode c)) ↔
      (trimChars s = [] ∧ c = parent) := by
  constructor
  · intro h
    by_cases ht : trimChars s = []
    · refine ⟨ht, ?_⟩
      simp only [parse_node, parse_nodeF, ht, if_pos] at h
      have := (RustRes.ret.inj h)
      exact (JsonNodeError.EmptyJsonNode.inj (Except.error.inj this)).symm
    · exfalso
      simp only [parse_node, parse_nodeF, ht, if_neg, if_false] at h
      cases hpv : parse_value s with
      | panicked => rw [hpv] at h; simp at h
      | ret ov =>
        rw [hpv] at h
        cases ov with
        | some n => simp at h
        | none =>
          simp only at h
          cases hpa : parse_arrayCore (fun e q => parse_nodeF s.length e q) s with
          | panicked => rw [hpa] at h; simp at h
          | ret oa =>
            rw [hpa] at h
            cases oa with
            | some n => simp at h
            | none =>
              simp only at h
              cases hpo : parse_objectCore (fun e q => parse_nodeF s.length e q) s with
              | panicked => rw [hpo] at h; simp at h
              | ret oo =>
                rw [hpo] at h
                cases oo with
                | some n => simp at h
                | none => simp at h
  · rintro ⟨ht, rfl⟩
    simp [parse_node, parse_nodeF, ht]

/-- Witness for C5: whitespace-only input with a parent context. -/
theorem c5_empty_input_iff_witness :
    parse_node [' ', '\t'] (some ['c']) = .ret (.error (.EmptyJsonNode (some ['c']))) :=
  (c5_empty_input_iff [' ', '\t'] (some ['c']) (some ['c'])).mpr ⟨by decide, rfl⟩

theorem parseI64Digits_some (ds : Str) (neg : Bool) (n : Int)
    (h : parseI64Digits ds neg = some n) :
    ds ≠ [] ∧ ds.all isDigitChar = true := by
  unfold parseI64Digits at h
  split at h
  · simp at h
  · split at h
    · exact ⟨by assumption, by assumption⟩
    · simp at h

theorem parseI64_head (l : Str) (n : Int) (h : parseI64 l = some n) :
    ∃ c cs, l = c :: cs ∧ (c = '+' ∨ c = '-' ∨ isDigitChar c = true) := by
  cases l with
  | nil => simp [parseI64, parseI64Digits] at h
  | cons c cs =>
    by_cases h1 : c = '+'
    · exact ⟨c, cs, rfl, Or.inl h1⟩
    · by_cases h2 : c = '-'
      · exact ⟨c, cs, rfl, Or.inr (Or.inl h2)⟩
      · rw [parseI64, if_neg h1, if_neg h2] at h
        obtain ⟨hne, hdig⟩ := parseI64Digits_some (c :: cs) false n h
        refine ⟨c, cs, rfl, Or.inr (Or.inr ?_)⟩
        have := List.all_eq_true.mp hdig c (by simp)
        simpa using this

theorem parse_string_none_of_head (s : Str)
    (h : (trimChars s).head? ≠ some '"') : parse_string s = .ret none := by
  unfold parse_string
  by_cases ht : trimChars s = []
  · simp [ht]
  · simp only [ht, if_false]
    rw [if_neg]
    rintro ⟨h1, _⟩
    exact h h1

theorem parse_value_of_parseI64 (s : Str) (n : Int)
    (h : parseI64 (trimChars s) = some n) :
    parse_value s = .ret (some (.Value (.Integer n))) := by
  obtain ⟨c, cs, hl, hc⟩ := parseI64_head _ n h
  have hq : (trimChars s).head? ≠ some '"' := by
    rw [hl]
    simp only [List.head?_cons, ne_eq, Option.some.injEq]
    rcases hc with rfl | rfl | hd
    · simp
    · simp
    · intro he
      rw [he] at hd
      simp [isDigitChar] at hd
  have hne : trimChars s ≠ [] := by rw [hl]; simp
  unfold parse_value
  rw [parse_string_none_of_head s hq]
  simp only [parse_integer, hne, if_false, h, Option.map_some']

/-- Claim C4: scalar grammar and priority — the scalar rules are tried in
the fixed order quoted-string, 64-bit integer, 64-bit float, case-insensitive
boolean, case-insensitive null, first match winning.  Concretely: `null`,
`true`, `false` (also in other ASCII case), `42` (an Integer, not a Float),
`3.14` (a Float; payload is the exact decimal value in this model, Rust
stores the nearest double), and a quoted span whose interior is taken
verbatim with no escape decoding.  Generally, any span whose trimmed text
parses as an `i64` yields exactly that Integer (integer priority over
float), and every quoted span parses back to its verbatim interior. -/
theorem c4_scalar_grammar_priority :
    (JsonNode.parse ( "null".data) = .ret (.ok (.Value .Null))) ∧
    (JsonNode.parse ( "true".data) = .ret (.ok (.Value (.Boolean true)))) ∧
    (JsonNode.parse ( "false".data) = .ret (.ok (.Value (.Boolean false)))) ∧
    (JsonNode.parse ( "TrUe".data) = .ret (.ok (.Value (.Boolean true)))) ∧
    (JsonNode.parse ( "NULL".data) = .ret (.ok (.Value .Null))) ∧
    (JsonNode.parse ( "42".data) = .ret (.ok (.Value (.Integer 42)))) ∧
    (JsonNode.parse ( "3.14".data) = .ret (.ok (.Value (.Float (.finite (mkRat 157 50)))))) ∧
    (JsonNode.parse ( "\"x\"".data) = .ret (.ok (.Value (.String ['x'])))) ∧
    (∀ (l : Str) (parent : Option Str),
      parse_node ('"' :: l ++ ['"']) parent = .ret (.ok (.Value (.String l)))) ∧
    (∀ (s : Str) (n : Int), parseI64 (trimChars s) = some n →
      parse_value s = .ret (some (.Value (.Integer n)))) := by
  refine ⟨by decide, by decide, by decide, by decide, by decide, by decide, by decide,
    by decide, ?_, parse_value_of_parseI64⟩
  intro l parent
  have hhead : ∀ c ∈ ('"' :: l ++ ['"'] : Str).head?, rustIsWhitespace c = false := by
    intro c hc
    simp only [List.cons_append, List.head?_cons, Option.mem_def, Option.some.injEq] at hc
    subst hc; decide
  have hlast : ∀ c ∈ ('"' :: l ++ ['"'] : Str).getLast?, rustIsWhitespace c = false := by
    intro c hc
    rw [show ('"' :: l ++ ['"'] : Str) = ('"' :: l) ++ ['"'] by simp,
      List.getLast?_concat] at hc
    simp only [Option.mem_def, Option.some.injEq] at hc
    subst hc; decide
  have htr : trimChars ('"' :: l ++ ['"']) = '"' :: l ++ ['"'] :=
    trimChars_eq_self _ hhead hlast
  have hps : parse_string ('"' :: l ++ ['"']) = .ret (some (.Value (.String l))) := by
    unfold parse_string
    rw [htr]
    have hne : ('"' :: l ++ ['"'] : Str) ≠ [] := by simp
    have hh : ('"' :: l ++ ['"'] : Str).head? = some '"' := by simp
    have hg : ('"' :: l ++ ['"'] : Str).getLast? = some '"' := by
      rw [show ('"' :: l ++ ['"'] : Str) = ('"' :: l) ++ ['"'] by simp, List.getLast?_concat]
    rw [if_neg (by simp), if_pos ⟨hh, hg⟩, if_pos (by simp)]
    simp
  unfold parse_node parse_nodeF
  rw [show ('"' :: l ++ ['"'] : Str).length = l.length + 2 by simp]
  simp only [htr]
  rw [if_neg (by simp)]
  unfold parse_value
  rw [hps]

/-- Witness for C4's general parts: integer priority at `42`, verbatim
string at interior `ab`. -/
theorem c4_scalar_grammar_priority_witness :
    (parseI64 (trimChars ( " 42".data)) = some 42 ∧
      parse_value ( " 42".data) = .ret (some (.Value (.Integer 42)))) ∧
    parse_node ('"' :: ['a', 'b'] ++ ['"']) none = .ret (.ok (.Value (.String ['a', 'b']))) :=
  ⟨⟨by decide, (c4_scalar_grammar_priority.2.2.2.2.2.2.2.2.2) ( " 42".data) 42 (by decide)⟩,
   (c4_scalar_grammar_priority.2.2.2.2.2.2.2.2.1) ['a', 'b'] none⟩

theorem trimChars_length_le (l : Str) : (trimChars l).length ≤ l.length := by
  unfold trimChars
  rw [List.length_reverse]
  refine le_trans (List.dropWhile_sublist _).length_le ?_
  rw [List.length_reverse]
  exact (List.dropWhile_sublist _).length_le

theorem splitGo_mem_length : ∀ (cs : Str) (elems : List Str) (cur : Str) (lvl : Int)
    (e : Str), e ∈ splitGo cs elems cur lvl → e ∈ elems ∨ e.length ≤ cur.length + cs.length := by
  intro cs
  induction cs with
  | nil =>
    intro elems cur lvl e he
    rw [splitGo] at he
    rcases List.mem_append.mp he with h | h
    · exact Or.inl h
    · simp only [List.mem_singleton] at h
      subst h
      exact Or.inr (by simpa using trimChars_length_le cur)
  | cons c cs' ih =>
    intro elems cur lvl e he
    rw [splitGo] at he
    by_cases h1 : c = '{' ∨ c = '['
    · rw [if_pos h1] at he
      rcases ih _ _ _ e he with h | h
      · exact Or.inl h
      · right; simp at h ⊢; omega
    · rw [if_neg h1] at he
      by_cases h2 : c = '}' ∨ c = ']'
      · rw [if_pos h2] at he
        rcases ih _ _ _ e he with h | h
        · exact Or.inl h
        · right; simp at h ⊢; omega
      · rw [if_neg h2] at he
        by_cases h3 : c = ',' ∧ lvl = 0
        · rw [if_pos h3] at he
          rcases ih _ _ _ e he with h | h
          · rcases List.mem_append.mp h with h' | h'
            · exact Or.inl h'
            · simp only [List.mem_singleton] at h'
              subst h'
              right
              have := trimChars_length_le cur
              simp; omega
          · right; simp at h ⊢; omega
        · rw [if_neg h3] at he
          rcases ih _ _ _ e he with h | h
          · exact Or.inl h
          · right; simp at h ⊢; omega

theorem splitTopLevel_mem_length (l : Str) (e : Str) (h : e ∈ splitTopLevel l) :
    e.length ≤ l.length := by
  rcases splitGo_mem_length l [] [] 0 e h with h' | h'
  · simp at h'
  · simpa using h'

theorem splitOnce_length : ∀ (l : Str) (sep : Char) (a b : Str),
    splitOnce l sep = some (a, b) → a.length + 1 + b.length = l.length := by
  intro l
  induction l with
  | nil => intro sep a b h; simp [splitOnce] at h
  | cons c cs ih =>
    intro sep a b h
    rw [splitOnce] at h
    by_cases hc : c = sep
    · rw [if_pos hc] at h
      simp only [Option.some.injEq, Prod.mk.injEq] at h
      obtain ⟨ha, hb⟩ := h
      subst ha
      subst hb
      simp [Nat.add_comm]
    · rw [if_neg hc] at h
      match hso : splitOnce cs sep with
      | none => rw [hso] at h; simp [Option.map] at h
      | some (a', b') =>
        rw [hso] at h
        simp only [Option.map_some', Option.some.injEq, Prod.mk.injEq] at h
        obtain ⟨ha, hb⟩ := h
        subst ha hb
        have := ih sep a' b' hso
        simp; omega

theorem length_ge_two_of_head_getLast (l : Str) (a b : Char)
    (h1 : l.head? = some a) (h2 : l.getLast? = some b) (hne : a ≠ b) :
    2 ≤ l.length := by
  match l with
  | [] => simp at h1
  | [x] =>
    simp only [List.head?_cons, Option.some.injEq] at h1
    rw [show [x].getLast? = some x from rfl] at h2
    simp only [Option.some.injEq] at h2
    exact absurd (h1.symm.trans h2) hne
  | x :: y :: r => simp

theorem parseElems_congr (p p' : Str → Option Str → RustRes (Except JsonNodeError JsonNode))
    (parent : Str) (es : List Str)
    (h : ∀ e ∈ es, p (trimChars e) (some parent) = p' (trimChars e) (some parent)) :
    parseElems p parent es = parseElems p' parent es := by
  induction es with
  | nil => rfl
  | cons e rest ih =>
    rw [parseElems, parseElems, h e (by simp), ih (fun e' he' => h e' (by simp [he']))]

theorem parseMembers_congr (p p' : Str → Option Str → RustRes (Except JsonNodeError JsonNode))
    (parent : Str) (ms : List Str)
    (h : ∀ m ∈ ms, ∀ key value, splitOnce (trimChars m) ':' = some (key, value) →
      p value (some parent) = p' value (some parent)) :
    parseMembers p parent ms = parseMembers p' parent ms := by
  induction ms with
  | nil => rfl
  | cons m rest ih =>
    rw [parseMembers, parseMembers]
    match hso : splitOnce (trimChars m) ':' with
    | none => rfl
    | some (key, value) =>
      dsimp only
      by_cases hk : key.length < 2
      · rw [if_pos hk, if_pos hk]
      · rw [if_neg hk, if_neg hk, h m (by simp) key value hso,
          ih (fun m' hm' => h m' (by simp [hm']))]

theorem interior_length (t : Str) (h : 2 ≤ t.length) :
    (trimChars ((t.drop 1).dropLast)).length + 2 ≤ t.length := by
  have h1 := trimChars_length_le ((t.drop 1).dropLast)
  have h2 : ((t.drop 1).dropLast).length = t.length - 1 - 1 := by
    rw [List.length_dropLast, List.length_drop]
  omega

theorem parse_arrayCore_congr (p p' : Str → Option Str → RustRes (Except JsonNodeError JsonNode))
    (s : Str) (h : ∀ e q, e.length + 2 ≤ s.length → p e q = p' e q) :
    parse_arrayCore p s = parse_arrayCore p' s := by
  unfold parse_arrayCore
  by_cases ht : trimChars s = []
  · simp [ht]
  · simp only [ht, if_false]
    by_cases hbr : (trimChars s).head? = some '[' ∧ (trimChars s).getLast? = some ']'
    · rw [if_pos hbr, if_pos hbr]
      by_cases hblank : removeSpacesTabs (trimChars (((trimChars s).drop 1).dropLast)) = []
      · rw [if_pos hblank, if_pos hblank]
      · rw [if_neg hblank, if_neg hblank]
        have htlen : 2 ≤ (trimChars s).length :=
          length_ge_two_of_head_getLast _ '[' ']' hbr.1 hbr.2 (by decide)
        rw [parseElems_congr p p' s _ ?_]
        intro e he
        apply h
        have h1 : e.length ≤ (trimChars (((trimChars s).drop 1).dropLast)).length :=
          splitTopLevel_mem_length _ e he
        have h2 := interior_length (trimChars s) htlen
        have h3 := trimChars_length_le e
        have h4 := trimChars_length_le s
        omega
    · rw [if_neg hbr, if_neg hbr]

theorem parse_objectCore_congr (p p' : Str → Option Str → RustRes (Except JsonNodeError JsonNode))
    (s : Str) (h : ∀ e q, e.length + 2 ≤ s.length → p e q = p' e q) :
    parse_objectCore p s = parse_objectCore p' s := by
  unfold parse_objectCore
  by_cases ht : trimChars s = []
  · simp [ht]
  · simp only [ht, if_false]
    by_cases hbr : (trimChars s).head? = some '{' ∧ (trimChars s).getLast? = some '}'
    · rw [if_pos hbr, if_pos hbr]
      by_cases hblank : removeSpacesTabs (trimChars (((trimChars s).drop 1).dropLast)) = []
      · rw [if_pos hblank, if_pos hblank]
      · rw [if_neg hblank, if_neg hblank]
        have htlen : 2 ≤ (trimChars s).length :=
          length_ge_two_of_head_getLast _ '{' '}' hbr.1 hbr.2 (by decide)
        rw [parseMembers_congr p p' s _ ?_]
        intro m hm key value hso
        apply h
        have h1 : m.length ≤ (trimChars (((trimChars s).drop 1).dropLast)).length :=
          splitTopLevel_mem_length _ m hm
        have h2 := interior_length (trimChars s) htlen
        have h3 := trimChars_length_le m
        have h4 := trimChars_length_le s
        have h5 := splitOnce_length _ ':' key value hso
        omega
    · rw [if_neg hbr, if_neg hbr]

/-- Bound irrelevance: any two bounds above the input length give the same
parse result, so `parse_node`'s `length + 1` is canonical. -/
theorem parse_nodeF_irrel : ∀ (n : Nat) (s : Str), s.length ≤ n →
    ∀ (b b' : Nat) (q : Option Str), s.length < b → s.length < b' →
    parse_nodeF b s q = parse_nodeF b' s q := by
  intro n
  induction n using Nat.strong_induction_on with
  | _ n ih =>
    intro s hsn b b' q hb hb'
    match b, hb with
    | b1 + 1, _ =>
    match b', hb' with
    | b2 + 1, _ =>
    rw [parse_nodeF, parse_nodeF]
    by_cases ht : trimChars s = []
    · simp [ht]
    · simp only [ht, if_false]
      have hcb : ∀ e (q' : Option Str), e.length + 2 ≤ s.length →
          parse_nodeF b1 e q' = parse_nodeF b2 e q' := by
        intro e q' hel
        have hn2 : 2 ≤ n := by omega
        exact ih (n - 1) (by omega) e (by omega) b1 b2 q' (by omega) (by omega)
      rw [parse_arrayCore_congr _ _ s hcb, parse_objectCore_congr _ _ s hcb]

theorem parse_node_eq_parse_nodeF (s : Str) (q : Option Str) (b : Nat)
    (hb : s.length < b) : parse_node s q = parse_nodeF b s q :=
  parse_nodeF_irrel s.length s le_rfl (s.length + 1) b q (by omega) hb

theorem parseI64_none_of_head (c : Char) (cs : Str) (h1 : c ≠ '+') (h2 : c ≠ '-')
    (h3 : isDigitChar c = false) : parseI64 (c :: cs) = none := by
  rw [parseI64, if_neg h1, if_neg h2]
  unfold parseI64Digits
  rw [if_neg (by simp), if_neg (by simp [List.all_cons, h3])]

theorem eqIgnoreAsciiCase_head_ne (c d : Char) (cs ds : Str)
    (h : toLowerAscii c ≠ toLowerAscii d) :
    eqIgnoreAsciiCase (c :: cs) (d :: ds) = false := by
  simp [eqIgnoreAsciiCase, h]

theorem parseF64Unsigned_none_of_head (c : Char) (cs : Str) (neg : Bool)
    (hdig : isDigitChar c = false) (hdot : c ≠ '.')
    (hi : toLowerAscii c ≠ 'i') (hn : toLowerAscii c ≠ 'n') :
    parseF64Unsigned (c :: cs) neg = none := by
  unfold parseF64Unsigned
  rw [if_neg, if_neg]
  · have htw : (c :: cs).takeWhile isDigitChar = [] := by
      simp [List.takeWhile_cons, hdig]
    have hdw : (c :: cs).dropWhile isDigitChar = c :: cs := by
      simp [List.dropWhile_cons, hdig]
    simp only [htw, hdw]
    rw [if_neg (by simp [hdot])]
    simp
  · rw [eqIgnoreAsciiCase_head_ne c 'n' cs _ (by simpa using hn)]
    simp
  · rw [eqIgnoreAsciiCase_head_ne c 'i' cs _ (by simpa using hi),
      eqIgnoreAsciiCase_head_ne c 'i' cs _ (by simpa using hi)]
    simp

theorem parseF64_none_of_head (c : Char) (cs : Str) (h1 : c ≠ '+') (h2 : c ≠ '-')
    (hdig : isDigitChar c = false) (hdot : c ≠ '.')
    (hi : toLowerAscii c ≠ 'i') (hn : toLowerAscii c ≠ 'n') :
    parseF64 (c :: cs) = none := by
  rw [parseF64, if_neg h1, if_neg h2]
  exact parseF64Unsigned_none_of_head c cs false hdig hdot hi hn

/-- A span whose trimmed text starts with `[` or `{` matches none of the
five scalar grammars. -/
theorem parse_value_none_of_bracket_head (s : Str) (c : Char) (cs : Str)
    (hhead : trimChars s = c :: cs) (hc : c = '[' ∨ c = '{') :
    parse_value s = .ret none := by
  have hstr : parse_string s = .ret none := by
    apply parse_string_none_of_head
    rw [hhead]
    rcases hc with rfl | rfl <;> simp
  have hint : parse_integer s = none := by
    unfold parse_integer
    rw [hhead, if_neg (by simp), parseI64_none_of_head c cs]
    · rfl
    all_goals rcases hc with rfl | rfl <;> decide
  have hflo : parse_float s = none := by
    unfold parse_float
    rw [hhead, if_neg (by simp), parseF64_none_of_head c cs]
    · rfl
    all_goals rcases hc with rfl | rfl <;> decide
  have hboo : parse_boolean s = none := by
    unfold parse_boolean
    rw [hhead, if_neg (by simp),
      eqIgnoreAsciiCase_head_ne c 't' cs _ (by rcases hc with rfl | rfl <;> decide),
      eqIgnoreAsciiCase_head_ne c 'f' cs _ (by rcases hc with rfl | rfl <;> decide)]
    simp
  have hnul : parse_null s = none := by
    unfold parse_null
    rw [hhead, if_neg (by simp),
      eqIgnoreAsciiCase_head_ne c 'n' cs _ (by rcases hc with rfl | rfl <;> decide)]
    simp
  unfold parse_value
  rw [hstr, hint, hflo, hboo, hnul]

theorem parseElems_no_panic (p : Str → Option Str → RustRes (Except JsonNodeError JsonNode))
    (parent : Str) (es : List Str)
    (h : ∀ e ∈ es, p (trimChars e) (some parent) ≠ .panicked) :
    parseElems p parent es ≠ .panicked := by
  induction es with
  | nil => simp [parseElems]
  | cons e rest ih =>
    rw [parseElems]
    have hr := h e (by simp)
    have hrs := ih (fun e' he' => h e' (by simp [he']))
    match hx : p (trimChars e) (some parent), hy : parseElems p parent rest with
    | .panicked, _ => exact absurd hx hr
    | .ret v, .panicked => exact absurd hy hrs
    | .ret (.error _), .ret _ => simp
    | .ret (.ok _), .ret none => simp
    | .ret (.ok _), .ret (some _) => simp

theorem parseElems_ret_none (p : Str → Option Str → RustRes (Except JsonNodeError JsonNode))
    (parent : Str) (es : List Str)
    (hnp : ∀ e ∈ es, p (trimChars e) (some parent) ≠ .panicked)
    (herr : ∃ e ∈ es, isParseError (p (trimChars e) (some parent)) = true) :
    parseElems p parent es = .ret none := by
  induction es with
  | nil => simp at herr
  | cons e rest ih =>
    rw [parseElems]
    have hr := hnp e (by simp)
    have hrs := parseElems_no_panic p parent rest (fun e' he' => hnp e' (by simp [he']))
    match hx : p (trimChars e) (some parent), hy : parseElems p parent rest with
    | .panicked, _ => exact absurd hx hr
    | .ret v, .panicked => exact absurd hy hrs
    | .ret (.error _), .ret _ => rfl
    | .ret (.ok n), .ret w =>
      obtain ⟨e', he', herr'⟩ := herr
      rcases List.mem_cons.mp he' with rfl | hmem
      · rw [hx] at herr'; simp [isParseError] at herr'
      · have := ih (fun e'' he'' => hnp e'' (by simp [he''])) ⟨e', hmem, herr'⟩
        rw [hy] at this
        cases w with
        | none => rfl
        | some _ => simp at this

theorem parse_objectCore_none_of_head (p : Str → Option Str → RustRes (Except JsonNodeError JsonNode))
    (s : Str) (h : (trimChars s).head? ≠ some '{') :
    parse_objectCore p s = .ret none := by
  unfold parse_objectCore
  by_cases ht : trimChars s = []
  · simp [ht]
  · rw [if_neg ht, if_neg]
    rintro ⟨h1, _⟩
    exact h h1

/-- Claim C6, amended: for a span whose trimmed text starts `[` and ends `]`
with a non-blank interior, if some level-0-comma-separated element fails to
parse with an error, and no element's parse panics (a panicking element —
possible through the object-member defect of C3 — aborts the process
instead), then the array parse yields no partial result (`none`) and the
whole parse of the span fails with a single `CouldntParseNode`
(UnparsableSpan) error carrying the entire span; the element's own error is
not preserved. -/
theorem c6_array_failure_amended (s : Str) (parent : Option Str)
    (h1 : (trimChars s).head? = some '[')
    (h2 : (trimChars s).getLast? = some ']')
    (h3 : removeSpacesTabs (trimChars (((trimChars s).drop 1).dropLast)) ≠ [])
    (h4 : ∃ e ∈ splitTopLevel (trimChars (((trimChars s).drop 1).dropLast)),
        isParseError (parse_node (trimChars e) (some s)) = true)
    (h5 : ∀ e ∈ splitTopLevel (trimChars (((trimChars s).drop 1).dropLast)),
        parse_node (trimChars e) (some s) ≠ .panicked) :
    parse_arrayCore (fun e q => parse_node e q) s = .ret none ∧
    parse_node s parent = .ret (.error (.CouldntParseNode s)) := by
  have ht : trimChars s ≠ [] := by
    intro h; rw [h] at h1; simp at h1
  have htlen : 2 ≤ (trimChars s).length :=
    length_ge_two_of_head_getLast _ '[' ']' h1 h2 (by decide)
  have hpe : parseElems (fun e q => parse_node e q) s
      (splitTopLevel (trimChars (((trimChars s).drop 1).dropLast))) = .ret none :=
    parseElems_ret_none _ s _ h5 h4
  have harr : parse_arrayCore (fun e q => parse_node e q) s = .ret none := by
    unfold parse_arrayCore
    rw [if_neg ht, if_pos ⟨h1, h2⟩, if_neg h3, hpe]
  refine ⟨harr, ?_⟩
  have hcb : ∀ (e : Str) (q : Option Str), e.length + 2 ≤ s.length →
      parse_nodeF s.length e q = parse_node e q := by
    intro e q he
    exact (parse_node_eq_parse_nodeF e q s.length (by omega)).symm
  obtain ⟨cs, hcs⟩ : ∃ cs, trimChars s = '[' :: cs := by
    match hx : trimChars s, h1 with
    | c :: cs', _ =>
      refine ⟨cs', ?_⟩
      rw [hx] at h1
      simp only [List.head?_cons, Option.some.injEq] at h1
      rw [h1]
  have hpv : parse_value s = .ret none :=
    parse_value_none_of_bracket_head s '[' cs hcs (Or.inl rfl)
  have harr' : parse_arrayCore (fun e q => parse_nodeF s.length e q) s = .ret none := by
    rw [parse_arrayCore_congr _ (fun e q => parse_node e q) s hcb]
    exact harr
  have hobj : parse_objectCore (fun e q => parse_nodeF s.length e q) s = .ret none := by
    apply parse_objectCore_none_of_head
    rw [hcs]; simp
  rw [parse_node, parse_nodeF, if_neg ht, hpv, harr', hobj]

/-- Counterexample to C6 as stated: in `[{"a":!},?]` the second element `?`
fails to parse with an error, yet the whole parse panics (the first
element's object member `"a":!` hits the unwrap defect), so no
`UnparsableSpan` error carrying the span is returned. -/
theorem c6_counterexample :
    splitTopLevel (trimChars (((trimChars ( "[\x7b\"a\":!\x7d,?]".data)).drop 1).dropLast))
      = [ "\x7b\"a\":!\x7d".data, ['?']] ∧
    isParseError (parse_node ['?'] (some ( "[\x7b\"a\":!\x7d,?]".data))) = true ∧
    JsonNode.parse ( "[\x7b\"a\":!\x7d,?]".data) = .panicked ∧
    JsonNode.parse ( "[\x7b\"a\":!\x7d,?]".data)
      ≠ .ret (.error (.CouldntParseNode ( "[\x7b\"a\":!\x7d,?]".data))) :=
  ⟨by decide, by decide, by decide, by decide⟩

/-- Witness for the amended C6 at `[1,?]`. -/
theorem c6_array_failure_amended_witness :
    parse_arrayCore (fun e q => parse_node e q) ( "[1,?]".data) = .ret none ∧
    parse_node ( "[1,?]".data) none
      = .ret (.error (.CouldntParseNode ( "[1,?]".data))) :=
  c6_array_failure_amended ( "[1,?]".data) none (by decide) (by decide) (by decide)
    (by decide) (by decide)

theorem Iter.nextCore_mono (nf nf' : Iter → Option (RustRes (Option JsonNode × Iter)))
    (h : ∀ it r, nf it = some r → nf' it = some r)
    (node : Option JsonNode) (ai oi : Option Nat)
    (r : RustRes (Option JsonNode × Iter))
    (hres : Iter.nextCore nf node ai oi = some r) :
    Iter.nextCore nf' node ai oi = some r := by
  match node with
  | none => simpa only [Iter.nextCore] using hres
  | some (.Value v) => simpa only [Iter.nextCore] using hres
  | some (.Array ns) =>
    match ai with
    | some i =>
      simp only [Iter.nextCore] at hres ⊢
      match hg : ns.get? (i + 1) with
      | none =>
        rw [hg] at hres
        dsimp only at hres
        exact hres
      | some sub =>
        rw [hg] at hres
        dsimp only at hres ⊢
        match hnf : nf (.mk (some (.Array ns)) (some (i + 1)) oi (some sub.into_iter)) with
        | none =>
          rw [hnf] at hres
          dsimp only at hres
          exact absurd hres (by simp)
        | some .panicked =>
          rw [hnf] at hres
          rw [h _ _ hnf]
          dsimp only at hres ⊢
          exact hres
        | some (.ret (x, st)) =>
          rw [hnf] at hres
          rw [h _ _ hnf]
          dsimp only at hres ⊢
          exact hres
    | none =>
      simp only [Iter.nextCore] at hres ⊢
      match hg : ns.get? 0 with
      | none =>
        rw [hg] at hres
        dsimp only at hres
        exact hres
      | some sub =>
        rw [hg] at hres
        dsimp only at hres ⊢
        match hnf : nf (.mk (some (.Array ns)) (some 0) oi (some sub.into_iter)) with
        | none =>
          rw [hnf] at hres
          dsimp only at hres
          exact absurd hres (by simp)
        | some .panicked =>
          rw [hnf] at hres
          rw [h _ _ hnf]
          dsimp only at hres ⊢
          exact hres
        | some (.ret (x, st)) =>
          rw [hnf] at hres
          rw [h _ _ hnf]
          dsimp only at hres ⊢
          exact hres
  | some (.Object ps) =>
    match oi with
    | some i =>
      simp only [Iter.nextCore] at hres ⊢
      match hg : ps.get? (i + 1) with
      | none =>
        rw [hg] at hres
        dsimp only at hres
        exact hres
      | some sub =>
        rw [hg] at hres
        dsimp only at hres ⊢
        match hnf : nf (.mk (some (.Object ps)) ai (some (i + 1)) (some sub.2.into_iter)) with
        | none =>
          rw [hnf] at hres
          dsimp only at hres
          exact absurd hres (by simp)
        | some .panicked =>
          rw [hnf] at hres
          rw [h _ _ hnf]
          dsimp only at hres ⊢
          exact hres
        | some (.ret (x, st)) =>
          rw [hnf] at hres
          rw [h _ _ hnf]
          dsimp only at hres ⊢
          exact hres
    | none =>
      simp only [Iter.nextCore] at hres ⊢
      match hg : ps.get? 0 with
      | none =>
        rw [hg] at hres
        dsimp only at hres
        exact hres
      | some sub =>
        rw [hg] at hres
        dsimp only at hres ⊢
        match hnf : nf (.mk (some (.Object ps)) ai (some 0) (some sub.2.into_iter)) with
        | none =>
          rw [hnf] at hres
          dsimp only at hres
          exact absurd hres (by simp)
        | some .panicked =>
          rw [hnf] at hres
          rw [h _ _ hnf]
          dsimp only at hres ⊢
          exact hres
        | some (.ret (x, st)) =>
          rw [hnf] at hres
          rw [h _ _ hnf]
          dsimp only at hres ⊢
          exact hres

theorem Iter.nextF_mono : ∀ (f : Nat) (it : Iter) (r : RustRes (Option JsonNode × Iter)),
    Iter.nextF f it = some r → Iter.nextF (f + 1) it = some r := by
  intro f
  induction f with
  | zero => intro it r h; simp [Iter.nextF] at h
  | succ f ih =>
    intro it r h
    match it with
    | .mk node ai oi child =>
      match child with
      | none =>
        simp only [Iter.nextF] at h ⊢
        exact Iter.nextCore_mono _ _ (fun it r h' => ih it r h') node ai oi r h
      | some c =>
        simp only [Iter.nextF] at h ⊢
        match hc : Iter.nextF f c with
        | none => rw [hc] at h; exact absurd h (by simp)
        | some .panicked => rw [hc] at h; rw [ih c _ hc]; exact h
        | some (.ret (some x, c')) => rw [hc] at h; rw [ih c _ hc]; exact h
        | some (.ret (none, c')) =>
          rw [hc] at h
          rw [ih c _ hc]
          exact Iter.nextCore_mono _ _ (fun it r h' => ih it r h') node ai oi r h

theorem Iter.nextF_le (f f' : Nat) (hle : f ≤ f') (it : Iter)
    (r : RustRes (Option JsonNode × Iter)) (h : Iter.nextF f it = some r) :
    Iter.nextF f' it = some r := by
  induction f' with
  | zero =>
    have hf : f = 0 := by omega
    subst hf
    exact h
  | succ f' ih =>
    by_cases hf : f = f' + 1
    · subst hf; exact h
    · exact Iter.nextF_mono f' it r (ih (by omega))

theorem NextIs_le (it : Iter) (out : Option JsonNode) (it' : Iter)
    (h : NextIs it out it') (f : Nat) (hf : ∃ f0, h.choose = f0 ∧ f0 ≤ f) :
    Iter.nextF f it = some (.ret (out, it')) := by
  obtain ⟨f0, hf0, hle⟩ := hf
  exact Iter.nextF_le _ f (hf0 ▸ hle) it _ h.choose_spec

theorem NextIs.wrap {c : Iter} {x : JsonNode} {c' : Iter}
    (h : NextIs c (some x) c') (node : Option JsonNode) (ai oi : Option Nat) :
    NextIs (.mk node ai oi (some c)) (some x) (.mk node ai oi (some c')) := by
  obtain ⟨f, hf⟩ := h
  refine ⟨f + 1, ?_⟩
  rw [Iter.nextF]
  rw [hf]

theorem Emits.wrapEmits {c : Iter} {xs : List JsonNode} {cE : Iter}
    (h : Emits c xs cE) (node : Option JsonNode) (ai oi : Option Nat) :
    Emits (.mk node ai oi (some c)) xs (.mk node ai oi (some cE)) := by
  induction h with
  | nil it => exact Emits.nil _
  | cons hn he ih => exact Emits.cons (hn.wrap node ai oi) ih

theorem NextIs_compose_core {node : Option JsonNode} {ai oi : Option Nat}
    {c cd : Iter} {out : Option JsonNode} {st : Iter}
    (hc : NextIs c none cd) (hcore : CoreIs node ai oi out st) :
    NextIs (.mk node ai oi (some c)) out st := by
  obtain ⟨f1, hf1⟩ := hc
  obtain ⟨f0, hf0⟩ := hcore
  refine ⟨max f1 f0 + 1, ?_⟩
  rw [Iter.nextF]
  rw [Iter.nextF_le f1 (max f1 f0) (le_max_left _ _) c _ hf1]
  exact hf0 (max f1 f0) (le_max_right _ _)

theorem CoreIs_none (ai oi : Option Nat) :
    CoreIs none ai oi none (.mk none ai oi none) :=
  ⟨0, fun _ _ => rfl⟩

theorem CoreIs_value (v : JsonValueType) (ai oi : Option Nat) :
    CoreIs (some (.Value v)) ai oi (some (.Value v)) (.mk none ai oi none) :=
  ⟨0, fun _ _ => rfl⟩

theorem NextIs_end (node : Option JsonNode) (ai oi : Option Nat) (c cd : Iter)
    (hc : NextIs c none cd) (hnode : node = none) :
    NextIs (.mk node ai oi (some c)) none (.mk none ai oi none) := by
  subst hnode
  exact NextIs_compose_core hc (CoreIs_none ai oi)

theorem CoreIs_array_some (ns : JsonNodes) (i : Nat) (oi : Option Nat)
    (sub : JsonNode) (hg : ns.get? (i + 1) = some sub)
    (out : Option JsonNode) (st : Iter)
    (hin : NextIs (.mk (some (.Array ns)) (some (i + 1)) oi (some sub.into_iter)) out st) :
    CoreIs (some (.Array ns)) (some i) oi out
      (if i + 1 = ns.length - 1 then st.clearArray else st) := by
  obtain ⟨f2, hf2⟩ := hin
  refine ⟨f2, fun f hf => ?_⟩
  simp only [Iter.nextCore]
  rw [hg]
  dsimp only
  rw [Iter.nextF_le f2 f hf _ _ hf2]
  by_cases hl : i + 1 = ns.length - 1 <;> simp [hl]

theorem CoreIs_array_none (ns : JsonNodes) (oi : Option Nat)
    (sub : JsonNode) (hg : ns.get? 0 = some sub)
    (out : Option JsonNode) (st : Iter)
    (hin : NextIs (.mk (some (.Array ns)) (some 0) oi (some sub.into_iter)) out st) :
    CoreIs (some (.Array ns)) none oi out
      (if ns.length = 1 then st.clearArray else st) := by
  obtain ⟨f2, hf2⟩ := hin
  refine ⟨f2, fun f hf => ?_⟩
  simp only [Iter.nextCore]
  rw [hg]
  dsimp only
  rw [Iter.nextF_le f2 f hf _ _ hf2]
  by_cases hl : ns.length = 1 <;> simp [hl]

theorem CoreIs_object_some (ps : JsonProps) (i : Nat) (ai : Option Nat)
    (sub : Str × JsonNode) (hg : ps.get? (i + 1) = some sub)
    (out : Option JsonNode) (st : Iter)
    (hin : NextIs (.mk (some (.Object ps)) ai (some (i + 1)) (some sub.2.into_iter)) out st) :
    CoreIs (some (.Object ps)) ai (some i) out
      (if i + 1 = ps.length - 1 then st.clearObject else st) := by
  obtain ⟨f2, hf2⟩ := hin
  refine ⟨f2, fun f hf => ?_⟩
  simp only [Iter.nextCore]
  rw [hg]
  dsimp only
  rw [Iter.nextF_le f2 f hf _ _ hf2]
  by_cases hl : i + 1 = ps.length - 1 <;> simp [hl]

theorem CoreIs_object_none (ps : JsonProps) (ai : Option Nat)
    (sub : Str × JsonNode) (hg : ps.get? 0 = some sub)
    (out : Option JsonNode) (st : Iter)
    (hin : NextIs (.mk (some (.Object ps)) ai (some 0) (some sub.2.into_iter)) out st) :
    CoreIs (some (.Object ps)) ai none out
      (if ps.length = 1 then st.resetObjectIndex else st) := by
  obtain ⟨f2, hf2⟩ := hin
  refine ⟨f2, fun f hf => ?_⟩
  simp only [Iter.nextCore]
  rw [hg]
  dsimp only
  rw [Iter.nextF_le f2 f hf _ _ hf2]
  by_cases hl : ps.length = 1 <;> simp [hl]

theorem NextIs_fresh_of_core {t : JsonNode} {out : Option JsonNode} {st : Iter}
    (h : CoreIs (some t) none none out st) : NextIs t.into_iter out st := by
  obtain ⟨f0, hf0⟩ := h
  exact ⟨f0 + 1, by rw [JsonNode.into_iter, Iter.nextF]; exact hf0 f0 le_rfl⟩

theorem IterDone_prepend {it it' : Iter} {x : JsonNode} {xs : List JsonNode}
    (h : NextIs it (some x) it') (hd : IterDone it' xs) : IterDone it (x :: xs) := by
  obtain ⟨itE, itF, he, hn⟩ := hd
  exact ⟨itE, itF, Emits.cons h he, hn⟩

theorem IterDone_emits_prepend {it it' : Iter} {xs ys : List JsonNode}
    (h : Emits it xs it') (hd : IterDone it' ys) : IterDone it (xs ++ ys) := by
  induction h with
  | nil it => exact hd
  | cons hn he ih => exact IterDone_prepend hn (ih hd)

/-- Once `self.node` is cleared, a state draining child `c` emits exactly
what `c` still emits and then ends. -/
theorem IterDone_drain (a o : Option Nat) (c : Iter) (xs : List JsonNode)
    (h : IterDone c xs) : IterDone (.mk none a o (some c)) xs := by
  obtain ⟨cE, cF, he, hn⟩ := h
  exact ⟨.mk none a o (some cE), .mk none a o none, he.wrapEmits none a o,
    NextIs_end none a o cE cF hn rfl⟩

theorem JsonNodes.get?_lt : ∀ (ns : JsonNodes) (i : Nat), i < ns.length →
    ∃ sub, ns.get? i = some sub
  | .nil, i, h => by simp [JsonNodes.length] at h
  | .cons t _, 0, _ => ⟨t, rfl⟩
  | .cons _ r, i + 1, h =>
    JsonNodes.get?_lt r i (by simp [JsonNodes.length] at h; omega)

theorem JsonProps.get?_ltP : ∀ (ps : JsonProps) (i : Nat), i < ps.length →
    ∃ sub, ps.get? i = some sub
  | .nil, i, h => by simp [JsonProps.length] at h
  | .cons k v _, 0, _ => ⟨(k, v), rfl⟩
  | .cons _ _ r, i + 1, h =>
    JsonProps.get?_ltP r i (by simp [JsonProps.length] at h; omega)

theorem JsonNodes.iterOk_get? : ∀ (ns : JsonNodes), iterOkElems ns = true →
    ∀ i sub, ns.get? i = some sub → iterOk sub = true
  | .nil, _, i, sub => by intro h; simp [JsonNodes.get?] at h
  | .cons t r, hok, 0, sub => by
    intro h
    simp only [JsonNodes.get?, Option.some.injEq] at h
    subst h
    have hok' : iterOk t = true ∧ iterOkElems r = true := by
      simpa [iterOkElems] using hok
    exact hok'.1
  | .cons t r, hok, i + 1, sub =>
    JsonNodes.iterOk_get? r
      (by simp only [iterOkElems, Bool.and_eq_true] at hok; exact hok.2) i sub

theorem JsonProps.iterOk_get?P : ∀ (ps : JsonProps), iterOkProps ps = true →
    ∀ i sub, ps.get? i = some sub → iterOk sub.2 = true
  | .nil, _, i, sub => by intro h; simp [JsonProps.get?] at h
  | .cons k v r, hok, 0, sub => by
    intro h
    simp only [JsonProps.get?, Option.some.injEq] at h
    subst h
    have hok' : iterOk v = true ∧ iterOkProps r = true := by
      simpa [iterOkProps] using hok
    exact hok'.1
  | .cons k v r, hok, i + 1, sub =>
    JsonProps.iterOk_get?P r
      (by simp only [iterOkProps, Bool.and_eq_true] at hok; exact hok.2) i sub

theorem JsonNodes.drop_get? : ∀ (ns : JsonNodes) (i : Nat) (sub : JsonNode),
    ns.get? i = some sub → ns.drop i = .cons sub (ns.drop (i + 1))
  | .nil, i, sub => by intro h; simp [JsonNodes.get?] at h
  | .cons t r, 0, sub => by
    intro h
    simp only [JsonNodes.get?, Option.some.injEq] at h
    subst h
    simp [JsonNodes.drop]
  | .cons t r, i + 1, sub => by
    intro h
    have := JsonNodes.drop_get? r i sub h
    simpa [JsonNodes.drop] using this

theorem JsonProps.drop_get?P : ∀ (ps : JsonProps) (i : Nat) (sub : Str × JsonNode),
    ps.get? i = some sub → ps.drop i = .cons sub.1 sub.2 (ps.drop (i + 1))
  | .nil, i, sub => by intro h; simp [JsonProps.get?] at h
  | .cons k v r, 0, sub => by
    intro h
    simp only [JsonProps.get?, Option.some.injEq] at h
    subst h
    simp [JsonProps.drop]
  | .cons k v r, i + 1, sub => by
    intro h
    have := JsonProps.drop_get?P r i sub h
    simpa [JsonProps.drop] using this

theorem JsonNodes.drop_of_le_length : ∀ (ns : JsonNodes) (i : Nat),
    ns.length ≤ i → ns.drop i = .nil
  | .nil, 0, _ => rfl
  | .nil, _ + 1, _ => rfl
  | .cons t r, 0, h => by simp [JsonNodes.length] at h
  | .cons t r, i + 1, h =>
    JsonNodes.drop_of_le_length r i (by simp [JsonNodes.length] at h; omega)

theorem JsonProps.drop_of_le_lengthP : ∀ (ps : JsonProps) (i : Nat),
    ps.length ≤ i → ps.drop i = .nil
  | .nil, 0, _ => rfl
  | .nil, _ + 1, _ => rfl
  | .cons k v r, 0, h => by simp [JsonProps.length] at h
  | .cons k v r, i + 1, h =>
    JsonProps.drop_of_le_lengthP r i (by simp [JsonProps.length] at h; omega)

theorem JsonNodes.length_eq_zero : ∀ (ns : JsonNodes), ns.length = 0 → ns = .nil
  | .nil, _ => rfl
  | .cons t r, h => by simp [JsonNodes.length] at h

theorem leaves_ne_nil : ∀ (t : JsonNode), iterOk t = true → t.leaves ≠ []
  | .Value v, _ => by simp [JsonNode.leaves]
  | .Array .nil, h => by simp [iterOk] at h
  | .Array (.cons t0 r), h => by
    have h0 : iterOk t0 = true := by
      simp only [iterOk, Bool.and_eq_true] at h
      exact h.1
    have hne := leaves_ne_nil t0 h0
    simp only [JsonNode.leaves, JsonNodes.leavesElems, ne_eq, List.append_eq_nil]
    rintro ⟨h1, _⟩
    exact hne h1
  | .Object .nil, h => by simp [iterOk] at h
  | .Object (.cons _ _ .nil), h => by simp [iterOk] at h
  | .Object (.cons k0 v0 (.cons k1 v1 r)), h => by
    have h0 : iterOk v0 = true := by
      simp only [iterOk, Bool.and_eq_true] at h
      exact h.1
    have hne := leaves_ne_nil v0 h0
    simp only [JsonNode.leaves, JsonProps.leavesProps, ne_eq, List.append_eq_nil]
    rintro ⟨h1, _⟩
    exact hne h1

/-- Continuation of the array traversal: from a state that is draining the
iterator of element `i` (with `k ≥ 1` elements still after index `i`), the
iterator emits the child's remaining items and then the leaves of all later
elements, and ends. -/
theorem arrCont : ∀ (k : Nat), ∀ (ns : JsonNodes) (i : Nat) (c : Iter) (xs : List JsonNode),
    1 ≤ k →
    ns.length = i + 1 + k →
    iterOkElems ns = true →
    (∀ j sub, ns.get? j = some sub → IterDone sub.into_iter sub.leaves) →
    IterDone c xs →
    IterDone (.mk (some (.Array ns)) (some i) none (some c))
      (xs ++ JsonNodes.leavesElems (ns.drop (i + 1))) := by
  intro k
  induction k using Nat.strong_induction_on with
  | _ k ih =>
    intro ns i c xs hk hlen hok hsub hc
    obtain ⟨cE, cF, hce, hcn⟩ := hc
    have hi1 : i + 1 < ns.length := by omega
    obtain ⟨sub, hg⟩ := JsonNodes.get?_lt ns (i + 1) hi1
    have hsubOk : iterOk sub = true := JsonNodes.iterOk_get? ns hok (i + 1) sub hg
    have hsubDone : IterDone sub.into_iter sub.leaves := hsub (i + 1) sub hg
    obtain ⟨y, ys, hley⟩ : ∃ y ys, sub.leaves = y :: ys := by
      cases hl : sub.leaves with
      | nil => exact absurd hl (leaves_ne_nil sub hsubOk)
      | cons a b => exact ⟨a, b, rfl⟩
    rw [hley] at hsubDone
    obtain ⟨sE, sF, hse, hsn⟩ := hsubDone
    cases hse with
    | @cons _ s1 _ _ _ hn1 he1 =>
      have hinner : NextIs (.mk (some (.Array ns)) (some (i + 1)) none (some sub.into_iter))
          (some y) (.mk (some (.Array ns)) (some (i + 1)) none (some s1)) :=
        hn1.wrap _ _ _
      have hcore := CoreIs_array_some ns i none sub hg (some y) _ hinner
      have hstep := NextIs_compose_core hcn hcore
      by_cases hlast : i + 1 = ns.length - 1
      · rw [if_pos hlast] at hstep
        have hs1 : IterDone s1 ys := ⟨sE, sF, he1, hsn⟩
        have hpost : IterDone
            ((Iter.mk (some (.Array ns)) (some (i + 1)) none (some s1)).clearArray) ys := by
          rw [show (Iter.mk (some (.Array ns)) (some (i + 1)) none (some s1)).clearArray
            = .mk none none none (some s1) from rfl]
          exact IterDone_drain none none s1 ys hs1
        have hdone := IterDone_emits_prepend (hce.wrapEmits (some (.Array ns)) (some i) none)
          (IterDone_prepend hstep hpost)
        rw [JsonNodes.drop_get? ns (i + 1) sub hg,
          JsonNodes.drop_of_le_length ns (i + 1 + 1) (by omega)]
        simpa [JsonNodes.leavesElems, hley] using hdone
      · rw [if_neg hlast] at hstep
        have hpost := ih (k - 1) (by omega) ns (i + 1) s1 ys (by omega) (by omega) hok hsub
          ⟨sE, sF, he1, hsn⟩
        have hdone := IterDone_emits_prepend (hce.wrapEmits (some (.Array ns)) (some i) none)
          (IterDone_prepend hstep hpost)
        rw [JsonNodes.drop_get? ns (i + 1) sub hg]
        simpa [JsonNodes.leavesElems, hley] using hdone

/-- Continuation of the object traversal (objects with at least two
properties): same pattern as `arrCont` over property values. -/
theorem objCont : ∀ (k : Nat), ∀ (ps : JsonProps) (i : Nat) (c : Iter) (xs : List JsonNode),
    1 ≤ k →
    ps.length = i + 1 + k →
    iterOkProps ps = true →
    (∀ j sub, ps.get? j = some sub → IterDone sub.2.into_iter sub.2.leaves) →
    IterDone c xs →
    IterDone (.mk (some (.Object ps)) none (some i) (some c))
      (xs ++ JsonProps.leavesProps (ps.drop (i + 1))) := by
  intro k
  induction k using Nat.strong_induction_on with
  | _ k ih =>
    intro ps i c xs hk hlen hok hsub hc
    obtain ⟨cE, cF, hce, hcn⟩ := hc
    have hi1 : i + 1 < ps.length := by omega
    obtain ⟨sub, hg⟩ := JsonProps.get?_ltP ps (i + 1) hi1
    have hsubOk : iterOk sub.2 = true := JsonProps.iterOk_get?P ps hok (i + 1) sub hg
    have hsubDone : IterDone sub.2.into_iter sub.2.leaves := hsub (i + 1) sub hg
    obtain ⟨y, ys, hley⟩ : ∃ y ys, sub.2.leaves = y :: ys := by
      cases hl : sub.2.leaves with
      | nil => exact absurd hl (leaves_ne_nil sub.2 hsubOk)
      | cons a b => exact ⟨a, b, rfl⟩
    rw [hley] at hsubDone
    obtain ⟨sE, sF, hse, hsn⟩ := hsubDone
    cases hse with
    | @cons _ s1 _ _ _ hn1 he1 =>
      have hinner : NextIs (.mk (some (.Object ps)) none (some (i + 1)) (some sub.2.into_iter))
          (some y) (.mk (some (.Object ps)) none (some (i + 1)) (some s1)) :=
        hn1.wrap _ _ _
      have hcore := CoreIs_object_some ps i none sub hg (some y) _ hinner
      have hstep := NextIs_compose_core hcn hcore
      by_cases hlast : i + 1 = ps.length - 1
      · rw [if_pos hlast] at hstep
        have hs1 : IterDone s1 ys := ⟨sE, sF, he1, hsn⟩
        have hpost : IterDone
            ((Iter.mk (some (.Object ps)) none (some (i + 1)) (some s1)).clearObject) ys := by
          rw [show (Iter.mk (some (.Object ps)) none (some (i + 1)) (some s1)).clearObject
            = .mk none none none (some s1) from rfl]
          exact IterDone_drain none none s1 ys hs1
        have hdone := IterDone_emits_prepend (hce.wrapEmits (some (.Object ps)) none (some i))
          (IterDone_prepend hstep hpost)
        rw [JsonProps.drop_get?P ps (i + 1) sub hg,
          JsonProps.drop_of_le_lengthP ps (i + 1 + 1) (by omega)]
        simpa [JsonProps.leavesProps, hley] using hdone
      · rw [if_neg hlast] at hstep
        have hpost := ih (k - 1) (by omega) ps (i + 1) s1 ys (by omega) (by omega) hok hsub
          ⟨sE, sF, he1, hsn⟩
        have hdone := IterDone_emits_prepend (hce.wrapEmits (some (.Object ps)) none (some i))
          (IterDone_prepend hstep hpost)
        rw [JsonProps.drop_get?P ps (i + 1) sub hg]
        simpa [JsonProps.leavesProps, hley] using hdone

mutual
/-- For every tree whose arrays are nonempty and whose objects have at least
two properties, the iterator from `&node` emits exactly the scalar leaves in
depth-first stored order and then reports the end. -/
theorem iterDone_node : ∀ (t : JsonNode), iterOk t = true → IterDone t.into_iter t.leaves
  | .Value v, _ =>
    ⟨.mk none none none none, .mk none none none none,
      Emits.cons (NextIs_fresh_of_core (CoreIs_value v none none)) (Emits.nil _),
      ⟨1, rfl⟩⟩
  | .Array .nil, h => by simp [iterOk] at h
  | .Array (.cons t0 r), h => by
    have hok : iterOk t0 = true ∧ iterOkElems r = true := by
      simpa [iterOk] using h
    have hsub : ∀ j sub, (JsonNodes.cons t0 r).get? j = some sub →
        IterDone sub.into_iter sub.leaves :=
      iterDone_elems (.cons t0 r) (by simp [iterOkElems, hok.1, hok.2])
    have ht0 : IterDone t0.into_iter t0.leaves := iterDone_node t0 hok.1
    obtain ⟨y, ys, hley⟩ : ∃ y ys, t0.leaves = y :: ys := by
      cases hl : t0.leaves with
      | nil => exact absurd hl (leaves_ne_nil t0 hok.1)
      | cons a b => exact ⟨a, b, rfl⟩
    rw [hley] at ht0
    obtain ⟨sE, sF, hse, hsn⟩ := ht0
    cases hse with
    | @cons _ s1 _ _ _ hn1 he1 =>
      have hinner : NextIs
          (.mk (some (.Array (.cons t0 r))) (some 0) none (some t0.into_iter))
          (some y) (.mk (some (.Array (.cons t0 r))) (some 0) none (some s1)) :=
        hn1.wrap _ _ _
      have hcore := CoreIs_array_none (.cons t0 r) none t0 rfl (some y) _ hinner
      have hfresh := NextIs_fresh_of_core hcore
      by_cases hone : (JsonNodes.cons t0 r).length = 1
      · have hr : r = .nil := JsonNodes.length_eq_zero r (by simp [JsonNodes.length] at hone; omega)
        subst hr
        rw [if_pos hone] at hfresh
        have hpost : IterDone
            ((Iter.mk (some (.Array (.cons t0 .nil))) (some 0) none (some s1)).clearArray) ys := by
          rw [show (Iter.mk (some (.Array (.cons t0 .nil))) (some 0) none (some s1)).clearArray
            = .mk none none none (some s1) from rfl]
          exact IterDone_drain none none s1 ys ⟨sE, sF, he1, hsn⟩
        have hdone := IterDone_prepend hfresh hpost
        simpa [JsonNode.leaves, JsonNodes.leavesElems, hley] using hdone
      · rw [if_neg hone] at hfresh
        have hlen : (JsonNodes.cons t0 r).length = 0 + 1 + ((JsonNodes.cons t0 r).length - 1) := by
          simp only [JsonNodes.length]
          omega
        have hpost := arrCont ((JsonNodes.cons t0 r).length - 1) (.cons t0 r) 0 s1 ys
          (by simp [JsonNodes.length] at hone ⊢; omega) hlen
          (by simp [iterOkElems, hok.1, hok.2]) hsub ⟨sE, sF, he1, hsn⟩
        have hdone := IterDone_prepend hfresh hpost
        have hdrop : (JsonNodes.cons t0 r).drop (0 + 1) = r := by simp [JsonNodes.drop]
        rw [hdrop] at hdone
        simpa [JsonNode.leaves, JsonNodes.leavesElems, hley] using hdone
  | .Object .nil, h => by simp [iterOk] at h
  | .Object (.cons _ _ .nil), h => by simp [iterOk] at h
  | .Object (.cons k0 v0 (.cons k1 v1 r)), h => by
    have hok : iterOk v0 = true ∧ iterOkProps (.cons k1 v1 r) = true := by
      simpa [iterOk] using h
    have hok2 : iterOk v1 = true ∧ iterOkProps r = true := by
      simpa [iterOkProps] using hok.2
    have hsub : ∀ j sub, (JsonProps.cons k0 v0 (.cons k1 v1 r)).get? j = some sub →
        IterDone sub.2.into_iter sub.2.leaves :=
      iterDone_props (.cons k0 v0 (.cons k1 v1 r))
        (by simp [iterOkProps, hok.1, hok2.1, hok2.2])
    have hv0 : IterDone v0.into_iter v0.leaves := iterDone_node v0 hok.1
    obtain ⟨y, ys, hley⟩ : ∃ y ys, v0.leaves = y :: ys := by
      cases hl : v0.leaves with
      | nil => exact absurd hl (leaves_ne_nil v0 hok.1)
      | cons a b => exact ⟨a, b, rfl⟩
    rw [hley] at hv0
    obtain ⟨sE, sF, hse, hsn⟩ := hv0
    cases hse with
    | @cons _ s1 _ _ _ hn1 he1 =>
      have hinner : NextIs
          (.mk (some (.Object (.cons k0 v0 (.cons k1 v1 r)))) none (some 0) (some v0.into_iter))
          (some y) (.mk (some (.Object (.cons k0 v0 (.cons k1 v1 r)))) none (some 0) (some s1)) :=
        hn1.wrap _ _ _
      have hcore := CoreIs_object_none (.cons k0 v0 (.cons k1 v1 r)) none ((k0, v0)) rfl
        (some y) _ hinner
      have hfresh := NextIs_fresh_of_core hcore
      have hone : ¬ (JsonProps.cons k0 v0 (.cons k1 v1 r)).length = 1 := by
        simp [JsonProps.length]
      rw [if_neg hone] at hfresh
      have hlen : (JsonProps.cons k0 v0 (.cons k1 v1 r)).length
          = 0 + 1 + ((JsonProps.cons k0 v0 (.cons k1 v1 r)).length - 1) := by
        simp only [JsonProps.length]
        omega
      have hpost := objCont ((JsonProps.cons k0 v0 (.cons k1 v1 r)).length - 1)
        (.cons k0 v0 (.cons k1 v1 r)) 0 s1 ys
        (by simp [JsonProps.length]) hlen
        (by simp [iterOkProps, hok.1, hok2.1, hok2.2]) hsub ⟨sE, sF, he1, hsn⟩
      have hdone := IterDone_prepend hfresh hpost
      have hdrop : (JsonProps.cons k0 v0 (.cons k1 v1 r)).drop (0 + 1) = .cons k1 v1 r := by
        simp [JsonProps.drop]
      rw [hdrop] at hdone
      simpa [JsonNode.leaves, JsonProps.leavesProps, hley] using hdone
theorem iterDone_elems : ∀ (ns : JsonNodes), iterOkElems ns = true →
    ∀ j sub, ns.get? j = some sub → IterDone sub.into_iter sub.leaves
  | .nil, _, j, sub => by intro h; simp [JsonNodes.get?] at h
  | .cons t r, hok, 0, sub => by
    intro hg
    simp only [JsonNodes.get?, Option.some.injEq] at hg
    subst hg
    exact iterDone_node t (by simp only [iterOkElems, Bool.and_eq_true] at hok; exact hok.1)
  | .cons t r, hok, j + 1, sub =>
    iterDone_elems r (by simp only [iterOkElems, Bool.and_eq_true] at hok; exact hok.2) j sub
theorem iterDone_props : ∀ (ps : JsonProps), iterOkProps ps = true →
    ∀ j sub, ps.get? j = some sub → IterDone sub.2.into_iter sub.2.leaves
  | .nil, _, j, sub => by intro h; simp [JsonProps.get?] at h
  | .cons k v r, hok, 0, sub => by
    intro hg
    simp only [JsonProps.get?, Option.some.injEq] at hg
    subst hg
    exact iterDone_node v (by simp only [iterOkProps, Bool.and_eq_true] at hok; exact hok.1)
  | .cons k v r, hok, j + 1, sub =>
    iterDone_props r (by simp only [iterOkProps, Bool.and_eq_true] at hok; exact hok.2) j sub
end

/-- Counterexample to C9 as stated: iterating the empty array panics
(`nodes[0]` on an empty vector) rather than contributing no elements, and
iterating the single-property object `{"a": 1}` yields its one leaf twice
(and forever), because the object branch never clears `self.node` when
`properties.len() == 1` — the yielded sequence is not the finite sequence of
scalar leaves. -/
theorem c9_counterexample :
    Iter.nextF 5 (JsonNode.into_iter (.Array .nil)) = some .panicked ∧
    JsonNode.leaves (.Object (.cons ['a'] (.Value (.Integer 1)) .nil))
      = [.Value (.Integer 1)] ∧
    Iter.firstTwoF 9 (JsonNode.into_iter (.Object (.cons ['a'] (.Value (.Integer 1)) .nil)))
      = some (some (.Value (.Integer 1)), some (.Value (.Integer 1))) :=
  ⟨rfl, by decide, rfl⟩

/-- Claim C9, amended: for every tree in which each array is nonempty and
each object has at least two properties, the iterator obtained from `&Node`
yields exactly the scalar leaves of the tree, visiting array elements and
object property values in stored order and recursing into nested containers,
and then signals the end of iteration.  (Trees with an empty array or empty
object make `next` panic, and a single-property object repeats its leaves
forever, so those are excluded.) -/
theorem c9_traversal_amended (t : JsonNode) (h : iterOk t = true) :
    IterDone t.into_iter t.leaves :=
  iterDone_node t h

/-- Witness for the amended C9 at the tree for `[[1],2,[3]]`: its leaf list
is `1, 2, 3` in that order and the iterator delivers exactly that. -/
theorem c9_traversal_amended_witness :
    iterOk (JsonNode.Array (.cons (.Array (.cons (.Value (.Integer 1)) .nil))
      (.cons (.Value (.Integer 2))
        (.cons (.Array (.cons (.Value (.Integer 3)) .nil)) .nil)))) = true ∧
    JsonNode.leaves (JsonNode.Array (.cons (.Array (.cons (.Value (.Integer 1)) .nil))
      (.cons (.Value (.Integer 2))
        (.cons (.Array (.cons (.Value (.Integer 3)) .nil)) .nil))))
      = [.Value (.Integer 1), .Value (.Integer 2), .Value (.Integer 3)] ∧
    IterDone (JsonNode.into_iter (JsonNode.Array (.cons (.Array (.cons (.Value (.Integer 1)) .nil))
      (.cons (.Value (.Integer 2))
        (.cons (.Array (.cons (.Value (.Integer 3)) .nil)) .nil)))))
      (JsonNode.leaves (JsonNode.Array (.cons (.Array (.cons (.Value (.Integer 1)) .nil))
        (.cons (.Value (.Integer 2))
          (.cons (.Array (.cons (.Value (.Integer 3)) .nil)) .nil))))) :=
  ⟨by decide, by decide, c9_traversal_amended _ (by decide)⟩

theorem neutral_delta (s : Str) (h : ∀ c ∈ s, neutralChar c = true) :
    deltaChars s = 0 := by
  induction s with
  | nil => rfl
  | cons c cs ih =>
    have hc := h c (by simp)
    simp only [neutralChar, Bool.not_eq_true', Bool.or_eq_false_iff,
      decide_eq_false_iff_not] at hc
    have h1 : ¬(c = '{' ∨ c = '[') := by tauto
    have h2 : ¬(c = '}' ∨ c = ']') := by tauto
    rw [deltaChars, if_neg h1, if_neg h2, ih (fun d hd => h d (by simp [hd])), zero_add]

theorem neutral_noTopComma (s : Str) (h : ∀ c ∈ s, neutralChar c = true) :
    ∀ lvl : Int, noTopComma s lvl = true := by
  induction s with
  | nil => intro lvl; rfl
  | cons c cs ih =>
    intro lvl
    have hc := h c (by simp)
    simp only [neutralChar, Bool.not_eq_true', Bool.or_eq_false_iff,
      decide_eq_false_iff_not] at hc
    have h1 : ¬(c = '{' ∨ c = '[') := by tauto
    have h2 : ¬(c = '}' ∨ c = ']') := by tauto
    have h3 : ¬(c = ',' ∧ lvl = 0) := by tauto
    rw [noTopComma, if_neg h1, if_neg h2, if_neg h3]
    exact ih (fun d hd => h d (by simp [hd])) lvl

theorem validStr_all_neutral (s : Str) (h : validStr s = true) :
    ∀ c ∈ s, neutralChar c = true := by
  intro c hc
  simp only [validStr, List.all_eq_true] at h
  have h2 := h c hc
  simp only [Bool.not_eq_true', Bool.or_eq_false_iff, decide_eq_false_iff_not] at h2
  simp only [neutralChar, Bool.not_eq_true', Bool.or_eq_false_iff, decide_eq_false_iff_not]
  tauto

theorem isDigit_neutral (c : Char) (h : isDigitChar c = true) : neutralChar c = true := by
  have hne : ∀ d : Char, isDigitChar d = false → ¬c = d := by
    intro d hd he
    rw [he, hd] at h
    exact Bool.false_ne_true h
  have h1 := hne '{' (by decide)
  have h2 := hne '}' (by decide)
  have h3 := hne '[' (by decide)
  have h4 := hne ']' (by decide)
  have h5 := hne ',' (by decide)
  simp only [neutralChar, Bool.not_eq_true', Bool.or_eq_false_iff, decide_eq_false_iff_not]
  tauto

theorem isDigit_not_ws (c : Char) (h : isDigitChar c = true) :
    rustIsWhitespace c = false := by
  simp only [isDigitChar, Bool.and_eq_true, decide_eq_true_eq] at h
  obtain ⟨h1, h2⟩ := h
  rw [Char.le_def] at h1 h2
  have h1' : 48 ≤ c.toNat := h1
  have h2' : c.toNat ≤ 57 := h2
  unfold rustIsWhitespace
  simp only [Bool.or_eq_false_iff, decide_eq_false_iff_not, Bool.and_eq_false_iff,
    decide_eq_true_eq, not_le]
  omega

theorem deltaChars_append (a b : Str) :
    deltaChars (a ++ b) = deltaChars a + deltaChars b := by
  induction a with
  | nil => rw [List.nil_append, deltaChars, zero_add]
  | cons c cs ih => rw [List.cons_append, deltaChars, deltaChars, ih]; ring

theorem noTopComma_append (a b : Str) (lvl : Int) :
    noTopComma (a ++ b) lvl =
      (noTopComma a lvl && noTopComma b (lvl + deltaChars a)) := by
  induction a generalizing lvl with
  | nil => simp [noTopComma, deltaChars]
  | cons c cs ih =>
    simp only [List.cons_append, noTopComma, deltaChars, List.append_eq]
    by_cases h1 : c = '{' ∨ c = '['
    · simp only [if_pos h1]
      have e : lvl + 1 + deltaChars cs = lvl + (1 + deltaChars cs) := by ring
      rw [ih (lvl + 1), e]
    · by_cases h2 : c = '}' ∨ c = ']'
      · simp only [if_neg h1, if_pos h2]
        have e : lvl - 1 + deltaChars cs = lvl + (-1 + deltaChars cs) := by ring
        rw [ih (lvl - 1), e]
      · by_cases h3 : c = ',' ∧ lvl = 0
        · simp only [if_neg h1, if_neg h2, if_pos h3, Bool.false_and]
        · simp only [if_neg h1, if_neg h2, if_neg h3]
          have e : lvl + deltaChars cs = lvl + (0 + deltaChars cs) := by ring
          rw [ih lvl, e]

theorem splitGo_chunk (cs : Str) : ∀ (rest : Str) (elems : List Str) (cur : Str)
    (lvl : Int), noTopComma cs lvl = true →
    splitGo (cs ++ rest) elems cur lvl =
      splitGo rest elems (cur ++ cs) (lvl + deltaChars cs) := by
  induction cs with
  | nil =>
    intro rest elems cur lvl _
    rw [List.nil_append, List.append_nil, deltaChars, add_zero]
  | cons c cs ih =>
    intro rest elems cur lvl h
    rw [List.cons_append, splitGo]
    simp only [noTopComma] at h
    have e1 : (cur ++ [c]) ++ cs = cur ++ c :: cs := by simp
    by_cases h1 : c = '{' ∨ c = '['
    · simp only [if_pos h1] at h ⊢
      rw [ih rest elems (cur ++ [c]) (lvl + 1) h]
      simp only [deltaChars, if_pos h1]
      have e2 : lvl + 1 + deltaChars cs = lvl + (1 + deltaChars cs) := by ring
      rw [e1, e2]
    · by_cases h2 : c = '}' ∨ c = ']'
      · simp only [if_neg h1, if_pos h2] at h ⊢
        rw [ih rest elems (cur ++ [c]) (lvl - 1) h]
        simp only [deltaChars, if_neg h1, if_pos h2]
        have e2 : lvl - 1 + deltaChars cs = lvl + (-1 + deltaChars cs) := by ring
        rw [e1, e2]
      · have h3 : ¬(c = ',' ∧ lvl = 0) := by
          intro hc
          rw [if_neg h1, if_neg h2, if_pos hc] at h
          exact Bool.false_ne_true h
        simp only [if_neg h1, if_neg h2, if_neg h3] at h ⊢
        rw [ih rest elems (cur ++ [c]) lvl h]
        simp only [deltaChars, if_neg h1, if_neg h2]
        have e2 : lvl + deltaChars cs = lvl + (0 + deltaChars cs) := by ring
        rw [e1, e2]

theorem joinComma_ne_nil : ∀ (ss : List Str), ss ≠ [] → (∀ s ∈ ss, s ≠ []) →
    joinComma ss ≠ []
  | [], hne, _ => absurd rfl hne
  | [s], _, hall => by rw [joinComma]; exact hall s (by simp)
  | s :: u :: r, _, hall => by
    rw [show joinComma (s :: u :: r) = s ++ ',' :: joinComma (u :: r) from rfl]
    obtain ⟨c, cs, rfl⟩ := List.exists_cons_of_ne_nil (hall s (by simp))
    simp

theorem joinComma_head_mem : ∀ (ss : List Str), ss ≠ [] → (∀ s ∈ ss, s ≠ []) →
    ∃ s ∈ ss, (joinComma ss).head? = s.head?
  | [], hne, _ => absurd rfl hne
  | [s], _, _ => ⟨s, by simp, by rw [joinComma]⟩
  | s :: u :: r, _, hall => by
    refine ⟨s, by simp, ?_⟩
    rw [show joinComma (s :: u :: r) = s ++ ',' :: joinComma (u :: r) from rfl]
    obtain ⟨c, cs, rfl⟩ := List.exists_cons_of_ne_nil (hall s (by simp))
    rw [List.cons_append, List.head?_cons, List.head?_cons]

theorem joinComma_getLast_mem : ∀ (ss : List Str), ss ≠ [] → (∀ s ∈ ss, s ≠ []) →
    ∃ s ∈ ss, (joinComma ss).getLast? = s.getLast?
  | [], hne, _ => absurd rfl hne
  | [s], _, _ => ⟨s, by simp, by rw [joinComma]⟩
  | s :: u :: r, _, hall => by
    obtain ⟨t, ht, he⟩ := joinComma_getLast_mem (u :: r) (by simp)
      (fun x hx => hall x (by simp [hx]))
    refine ⟨t, by simp [ht], ?_⟩
    rw [show joinComma (s :: u :: r) = s ++ ',' :: joinComma (u :: r) from rfl,
      List.getLast?_append_of_ne_nil s (by simp), ← he,
      show (',' :: joinComma (u :: r)) = [','] ++ joinComma (u :: r) from rfl,
      List.getLast?_append_of_ne_nil [','] (joinComma_ne_nil (u :: r) (by simp)
        (fun x hx => hall x (by simp [hx])))]

theorem joinComma_delta : ∀ (ss : List Str), (∀ s ∈ ss, deltaChars s = 0) →
    deltaChars (joinComma ss) = 0
  | [], _ => rfl
  | [s], h => by rw [joinComma]; exact h s (by simp)
  | s :: u :: r, h => by
    rw [show joinComma (s :: u :: r) = s ++ ',' :: joinComma (u :: r) from rfl,
      deltaChars_append, h s (by simp), deltaChars,
      joinComma_delta (u :: r) (fun x hx => h x (by simp [hx]))]
    rfl

theorem joinComma_noTopComma : ∀ (ss : List Str),
    (∀ s ∈ ss, deltaChars s = 0 ∧ ∀ lvl : Int, 0 ≤ lvl → noTopComma s lvl = true) →
    ∀ lvl : Int, 1 ≤ lvl → noTopComma (joinComma ss) lvl = true
  | [], _, _, _ => rfl
  | [s], h, lvl, hl => by rw [joinComma]; exact (h s (by simp)).2 lvl (by omega)
  | s :: u :: r, h, lvl, hl => by
    rw [show joinComma (s :: u :: r) = s ++ ',' :: joinComma (u :: r) from rfl,
      noTopComma_append, (h s (by simp)).2 lvl (by omega),
      (h s (by simp)).1, add_zero, noTopComma, if_neg (by decide), if_neg (by decide),
      if_neg (by rintro ⟨_, h0⟩; omega),
      joinComma_noTopComma (u :: r) (fun x hx => h x (by simp [hx])) lvl hl]
    rfl

theorem length_le_joinComma : ∀ (ss : List Str), ∀ s ∈ ss,
    s.length ≤ (joinComma ss).length
  | [], s, hm => by simp at hm
  | [u], s, hm => by
    rw [List.mem_singleton] at hm
    rw [joinComma, hm]
  | u :: v :: r, s, hm => by
    rw [show joinComma (u :: v :: r) = u ++ ',' :: joinComma (v :: r) from rfl,
      List.length_append, List.length_cons]
    rcases List.mem_cons.mp hm with rfl | hm2
    · omega
    · have := length_le_joinComma (v :: r) s hm2
      omega

theorem splitGo_joinComma : ∀ (ss : List Str) (elems : List Str),
    (∀ s ∈ ss, deltaChars s = 0 ∧ noTopComma s 0 = true) → ss ≠ [] →
    splitGo (joinComma ss) elems [] 0 = elems ++ ss.map trimChars
  | [], _, _, hne => absurd rfl hne
  | [s], elems, h, _ => by
    have hs := h s (by simp)
    have hc := splitGo_chunk s [] elems [] 0 hs.2
    rw [List.append_nil, List.nil_append] at hc
    rw [joinComma, hc, hs.1, splitGo]
    rfl
  | s :: u :: r, elems, h, _ => by
    have hs := h s (by simp)
    have hc := splitGo_chunk s (',' :: joinComma (u :: r)) elems [] 0 hs.2
    rw [List.nil_append, hs.1, add_zero] at hc
    rw [show joinComma (s :: u :: r) = s ++ ',' :: joinComma (u :: r) from rfl,
      hc, splitGo, if_neg (by decide), if_neg (by decide),
      if_pos (by exact ⟨rfl, rfl⟩),
      splitGo_joinComma (u :: r) (elems ++ [trimChars s])
        (fun x hx => h x (by simp [hx])) (by simp)]
    simp

theorem splitOnce_append (a : Str) (sep : Char) (b : Str) (h : sep ∉ a) :
    splitOnce (a ++ sep :: b) sep = some (a, b) := by
  induction a with
  | nil => rw [List.nil_append, splitOnce, if_pos rfl]
  | cons c cs ih =>
    rw [List.cons_append, splitOnce,
      if_neg (fun hc => h (by rw [← hc]; exact List.mem_cons_self c cs)),
      ih (fun hm => h (List.mem_cons_of_mem c hm))]
    rfl

theorem removeSpacesTabs_ne_nil (l : Str) (c : Char) (hc : l.head? = some c)
    (hw : rustIsWhitespace c = false) : removeSpacesTabs l ≠ [] := by
  obtain ⟨d, ds, rfl⟩ : ∃ d ds, l = d :: ds := by
    cases l with
    | nil => simp at hc
    | cons d ds => exact ⟨d, ds, rfl⟩
  rw [List.head?_cons, Option.some.injEq] at hc
  subst hc
  have h1 : ¬d = ' ' := fun he => by rw [he] at hw; exact absurd hw (by decide)
  have h2 : ¬d = '\t' := fun he => by rw [he] at hw; exact absurd hw (by decide)
  rw [removeSpacesTabs, List.filter_cons, if_pos (by simp [h1, h2])]
  simp

theorem goodSerial_trim (s : Str) (h : goodSerial s) : trimChars s = s :=
  trimChars_eq_self s h.2.2.2.1 h.2.2.2.2

theorem digitChar_digit (n : Nat) (h : n < 10) : isDigitChar (digitChar n) = true := by
  interval_cases n <;> decide

theorem digitChar_val (n : Nat) (h : n < 10) : digitVal (digitChar n) = n := by
  interval_cases n <;> decide

theorem digitsToNat_concat (a : Str) (d : Char) :
    digitsToNat (a ++ [d]) = digitsToNat a * 10 + digitVal d := by
  simp [digitsToNat, List.foldl_append]

theorem natReprAux_spec : ∀ (fuel n : Nat), n < fuel →
    (natReprAux fuel n).all isDigitChar = true ∧ natReprAux fuel n ≠ [] ∧
      digitsToNat (natReprAux fuel n) = n
  | 0, _, h => absurd h (by omega)
  | fuel + 1, n, h => by
    rw [natReprAux]
    by_cases h10 : n < 10
    · rw [if_pos h10]
      refine ⟨by simp [digitChar_digit n h10], by simp, ?_⟩
      simp [digitsToNat, digitChar_val n h10]
    · rw [if_neg h10]
      have hrec := natReprAux_spec fuel (n / 10) (by omega)
      refine ⟨?_, by simp, ?_⟩
      · rw [List.all_append, hrec.1]
        simp [digitChar_digit (n % 10) (by omega)]
      · rw [digitsToNat_concat, hrec.2.2, digitChar_val (n % 10) (by omega)]
        omega

theorem natRepr_spec (n : Nat) : (natRepr n).all isDigitChar = true ∧
    natRepr n ≠ [] ∧ digitsToNat (natRepr n) = n :=
  natReprAux_spec (n + 1) n (by omega)

theorem parseI64Digits_eval (ds : Str) (hne : ds ≠ [])
    (hall : ds.all isDigitChar = true) :
    parseI64Digits ds false = (if i64Max < (digitsToNat ds : Int) then none
      else some ((digitsToNat ds : Int))) := by
  rw [parseI64Digits, if_neg hne, if_pos hall]
  dsimp only
  rw [if_neg (by simp)]

theorem parseI64Digits_eval_neg (ds : Str) (hne : ds ≠ [])
    (hall : ds.all isDigitChar = true) :
    parseI64Digits ds true = (if -(digitsToNat ds : Int) < i64Min then none
      else some (-(digitsToNat ds : Int))) := by
  rw [parseI64Digits, if_neg hne, if_pos hall]
  dsimp only
  rw [if_pos rfl]

theorem parseI64_intRepr (n : Int) (h1 : i64Min ≤ n) (h2 : n ≤ i64Max) :
    parseI64 (intRepr n) = some n := by
  match n with
  | .ofNat m =>
    have hs := natRepr_spec m
    obtain ⟨c, cs, hcc⟩ := List.exists_cons_of_ne_nil hs.2.1
    have hcd : isDigitChar c = true := List.all_eq_true.mp hs.1 c (by rw [hcc]; simp)
    have hp : ¬c = '+' := fun he => by rw [he] at hcd; exact absurd hcd (by decide)
    have hm : ¬c = '-' := fun he => by rw [he] at hcd; exact absurd hcd (by decide)
    rw [intRepr, hcc, parseI64, if_neg hp, if_neg hm, ← hcc,
      parseI64Digits_eval (natRepr m) hs.2.1 hs.1, hs.2.2, if_neg (by
        rw [Int.not_lt]
        exact_mod_cast h2)]
    exact_mod_cast rfl
  | .negSucc m =>
    have hs := natRepr_spec (m + 1)
    have hneg : (Int.negSucc m) = -((m : Int) + 1) := Int.negSucc_eq m
    rw [intRepr, parseI64, if_neg (by decide), if_pos rfl,
      parseI64Digits_eval_neg (natRepr (m + 1)) hs.2.1 hs.1, hs.2.2,
      if_neg (by
        rw [Int.not_lt]
        rw [hneg] at h1
        push_cast at h1 ⊢
        exact h1)]
    rw [hneg]
    push_cast
    rfl

theorem natRepr_not_ws : ∀ c ∈ natRepr 0 ++ natRepr 1, rustIsWhitespace c = false := by
  decide

theorem intRepr_head_last (n : Int) :
    (∀ c ∈ (intRepr n).head?, rustIsWhitespace c = false) ∧
    (∀ c ∈ (intRepr n).getLast?, rustIsWhitespace c = false) ∧ intRepr n ≠ [] := by
  have hdig : ∀ (m : Nat) (c : Char), c ∈ natRepr m → rustIsWhitespace c = false :=
    fun m c hc => isDigit_not_ws c (List.all_eq_true.mp (natRepr_spec m).1 c hc)
  match n with
  | .ofNat m =>
    refine ⟨?_, ?_, (natRepr_spec m).2.1⟩
    · intro c hc
      exact hdig m c (List.mem_of_mem_head? hc)
    · intro c hc
      obtain ⟨hne, rfl⟩ := List.mem_getLast?_eq_getLast hc
      exact hdig m _ (List.getLast_mem hne)
  | .negSucc m =>
    refine ⟨?_, ?_, by rw [intRepr]; simp⟩
    · intro c hc
      rw [intRepr, List.head?_cons, Option.mem_some_iff] at hc
      rw [← hc]
      decide
    · intro c hc
      rw [intRepr, show ('-' :: natRepr (m + 1)) = ['-'] ++ natRepr (m + 1) from rfl,
        List.getLast?_append_of_ne_nil ['-'] (natRepr_spec (m + 1)).2.1] at hc
      obtain ⟨hne, rfl⟩ := List.mem_getLast?_eq_getLast hc
      exact hdig (m + 1) _ (List.getLast_mem hne)

theorem parse_string_quoted (s : Str) :
    parse_string (('"' :: s) ++ ['"']) = .ret (some (.Value (.String s))) := by
  have htrim : trimChars (('"' :: s) ++ ['"']) = ('"' :: s) ++ ['"'] := by
    refine trimChars_eq_self _ ?_ ?_
    · rw [List.cons_append, List.head?_cons]
      intro c hc
      rw [Option.mem_some_iff] at hc
      rw [← hc]
      decide
    · rw [List.getLast?_concat]
      intro c hc
      rw [Option.mem_some_iff] at hc
      rw [← hc]
      decide
  rw [parse_string]
  simp only [htrim]
  rw [if_neg (by simp), if_pos ⟨by simp, by rw [List.getLast?_concat]⟩,
    if_pos (by simp)]
  rw [List.cons_append, List.drop_one, List.tail_cons, List.dropLast_concat]

theorem parse_value_quoted (s : Str) :
    parse_value (('"' :: s) ++ ['"']) = .ret (some (.Value (.String s))) := by
  rw [parse_value, parse_string_quoted s]

theorem trim_intRepr (n : Int) : trimChars (intRepr n) = intRepr n :=
  trimChars_eq_self _ (intRepr_head_last n).1 (intRepr_head_last n).2.1

theorem parse_value_intRepr (n : Int) (h1 : i64Min ≤ n) (h2 : n ≤ i64Max) :
    parse_value (intRepr n) = .ret (some (.Value (.Integer n))) := by
  apply parse_value_of_parseI64
  rw [trim_intRepr]
  exact parseI64_intRepr n h1 h2

theorem parse_value_true :
    parse_value ['t', 'r', 'u', 'e'] = .ret (some (.Value (.Boolean true))) := by decide

theorem parse_value_false :
    parse_value ['f', 'a', 'l', 's', 'e'] = .ret (some (.Value (.Boolean false))) := by
  decide

theorem parse_value_null :
    parse_value ['n', 'u', 'l', 'l'] = .ret (some (.Value .Null)) := by decide

theorem parse_arrayCore_none_of_head
    (p : Str → Option Str → RustRes (Except JsonNodeError JsonNode)) (s : Str)
    (h : (trimChars s).head? ≠ some '[') : parse_arrayCore p s = .ret none := by
  unfold parse_arrayCore
  by_cases ht : trimChars s = []
  · simp [ht]
  · rw [if_neg ht, if_neg]
    rintro ⟨h1, _⟩
    exact h h1

theorem joined_eq_joinComma : ∀ ns : JsonNodes,
    JsonNodes.joined ns = joinComma (ns.toList.map JsonNode.to_json_string)
  | .nil => rfl
  | .cons _ .nil => rfl
  | .cons t (.cons u r) => by
    rw [show JsonNodes.joined (.cons t (.cons u r))
        = JsonNode.to_json_string t ++ ',' :: JsonNodes.joined (.cons u r) from rfl,
      joined_eq_joinComma (.cons u r)]
    rfl

theorem entriesJoin_eq_joinComma : ∀ ps : JsonProps,
    JsonProps.entriesJoin ps = joinComma (ps.toList.map memberStr)
  | .nil => rfl
  | .cons _ _ .nil => rfl
  | .cons k v (.cons k2 v2 r) => by
    rw [show JsonProps.entriesJoin (.cons k v (.cons k2 v2 r))
        = memberStr (k, v) ++ ',' :: JsonProps.entriesJoin (.cons k2 v2 r) from rfl,
      entriesJoin_eq_joinComma (.cons k2 v2 r)]
    rfl

theorem entriesConcat_eq : ∀ (ps : JsonProps), ps ≠ .nil →
    JsonProps.entriesConcat ps = JsonProps.entriesJoin ps ++ [',']
  | .nil, h => absurd rfl h
  | .cons k v .nil, _ => by
    rw [show JsonProps.entriesConcat (.cons k v .nil)
        = '"' :: k ++ '"' :: ':' :: (JsonNode.to_json_string v
            ++ ',' :: JsonProps.entriesConcat .nil) from rfl,
      show JsonProps.entriesJoin (.cons k v .nil) = memberStr (k, v) from rfl,
      show JsonProps.entriesConcat .nil = [] from rfl, memberStr]
    simp
  | .cons k v (.cons k2 v2 r), _ => by
    rw [show JsonProps.entriesConcat (.cons k v (.cons k2 v2 r))
        = '"' :: k ++ '"' :: ':' :: (JsonNode.to_json_string v
            ++ ',' :: JsonProps.entriesConcat (.cons k2 v2 r)) from rfl,
      entriesConcat_eq (.cons k2 v2 r) (fun h => JsonProps.noConfusion h),
      show JsonProps.entriesJoin (.cons k v (.cons k2 v2 r))
        = memberStr (k, v) ++ ',' :: JsonProps.entriesJoin (.cons k2 v2 r) from rfl,
      memberStr]
    simp

theorem object_to_json_string (ps : JsonProps) (h : ps ≠ .nil) :
    JsonNode.to_json_string (.Object ps)
      = ('{' :: JsonProps.entriesJoin ps) ++ ['}'] := by
  rw [show JsonNode.to_json_string (.Object ps)
      = (('{' :: JsonProps.entriesConcat ps).dropLast) ++ ['}'] from rfl,
    entriesConcat_eq ps h,
    show ('{' :: (JsonProps.entriesJoin ps ++ [',']))
      = ('{' :: JsonProps.entriesJoin ps) ++ [','] from by simp,
    List.dropLast_concat]

theorem mem_of_headOpt (l : Str) (c : Char) (hc : c ∈ l.head?) : c ∈ l := by
  rw [List.eq_cons_of_mem_head? hc]
  exact List.mem_cons_self c _

theorem mem_of_lastOpt (l : Str) (c : Char) (hc : c ∈ l.getLast?) : c ∈ l := by
  obtain ⟨h9, rfl⟩ := List.mem_getLast?_eq_getLast hc
  exact List.getLast_mem h9

theorem goodSerial_mk (s : Str) (hne : s ≠ [])
    (hneu : ∀ c ∈ s, neutralChar c = true)
    (hh : ∀ c ∈ s.head?, rustIsWhitespace c = false)
    (hl : ∀ c ∈ s.getLast?, rustIsWhitespace c = false) : goodSerial s :=
  ⟨hne, neutral_delta s hneu, fun lvl _ => neutral_noTopComma s hneu lvl, hh, hl⟩

theorem goodSerial_of_all (s : Str) (hne : s ≠ [])
    (hb : ∀ c ∈ s, neutralChar c = true ∧ rustIsWhitespace c = false) : goodSerial s :=
  goodSerial_mk s hne (fun c hc => (hb c hc).1)
    (fun c hc => (hb c (mem_of_headOpt s c hc)).2)
    (fun c hc => (hb c (mem_of_lastOpt s c hc)).2)

theorem goodSerial_wrap (inner : Str) (o cl : Char)
    (ho : o = '[' ∨ o = '{') (hc : cl = ']' ∨ cl = '}')
    (hd : deltaChars inner = 0)
    (hn : ∀ lvl : Int, 1 ≤ lvl → noTopComma inner lvl = true) :
    goodSerial ((o :: inner) ++ [cl]) := by
  have hd1 : deltaChars [cl] = -1 := by rcases hc with rfl | rfl <;> decide
  have hcl : ∀ x : Int, noTopComma [cl] x = true := by
    intro x
    rcases hc with rfl | rfl <;>
      rw [noTopComma, if_neg (by decide), if_pos (by decide), noTopComma]
  refine ⟨by simp, ?_, ?_, ?_, ?_⟩
  · rw [List.cons_append, deltaChars, if_pos (by tauto), deltaChars_append, hd, hd1]
    norm_num
  · intro lvl _
    rw [List.cons_append, noTopComma, if_pos (by tauto), noTopComma_append, hd,
      hn (lvl + 1) (by omega), hcl, Bool.and_self]
  · intro c hcm
    rw [List.cons_append, List.head?_cons, Option.mem_some_iff] at hcm
    rw [← hcm]
    rcases ho with rfl | rfl <;> decide
  · intro c hcm
    rw [List.getLast?_concat, Option.mem_some_iff] at hcm
    rw [← hcm]
    rcases hc with rfl | rfl <;> decide

theorem goodSerial_member (k : Str) (v : JsonNode) (hk : validStr k = true)
    (hv : goodSerial (JsonNode.to_json_string v)) : goodSerial (memberStr (k, v)) := by
  obtain ⟨hvne, hvd, hvn, hvh, hvl⟩ := hv
  have hneuPre : ∀ c ∈ ('"' :: k), neutralChar c = true := by
    intro c hc
    rcases List.mem_cons.mp hc with rfl | hcs
    · decide
    · exact validStr_all_neutral k hk c hcs
  have hm : memberStr (k, v)
      = ('"' :: k) ++ ('"' :: ':' :: JsonNode.to_json_string v) := rfl
  have hd2 : deltaChars ('"' :: ':' :: JsonNode.to_json_string v) = 0 := by
    rw [deltaChars, if_neg (by decide), if_neg (by decide), deltaChars,
      if_neg (by decide), if_neg (by decide), hvd]
    norm_num
  rw [hm]
  refine ⟨by simp, ?_, ?_, ?_, ?_⟩
  · rw [deltaChars_append, neutral_delta _ hneuPre, hd2]
    norm_num
  · intro lvl hl
    rw [noTopComma_append, neutral_delta _ hneuPre, add_zero,
      neutral_noTopComma _ hneuPre lvl, Bool.true_and, noTopComma,
      if_neg (by decide), if_neg (by decide),
      if_neg (by rintro ⟨hq, _⟩; exact absurd hq (by decide)),
      noTopComma, if_neg (by decide), if_neg (by decide),
      if_neg (by rintro ⟨hq, _⟩; exact absurd hq (by decide))]
    exact hvn lvl hl
  · intro c hc
    rw [List.cons_append, List.head?_cons, Option.mem_some_iff] at hc
    rw [← hc]
    decide
  · intro c hc
    rw [List.getLast?_append_of_ne_nil _ (by simp),
      show ('"' :: ':' :: JsonNode.to_json_string v)
        = ['"', ':'] ++ JsonNode.to_json_string v from rfl,
      List.getLast?_append_of_ne_nil _ hvne] at hc
    exact hvl c hc

mutual

theorem serialNode : ∀ (t : JsonNode), validNode t = true → noFloat t = true →
    noEmptyObject t = true → goodSerial (JsonNode.to_json_string t)
  | .Value (.String s), h, _, _ => by
    have hv : validStr s = true := h
    rw [show JsonNode.to_json_string (.Value (.String s)) = ('"' :: s) ++ ['"'] from rfl]
    refine goodSerial_mk _ (by simp) ?_ ?_ ?_
    · intro c hc
      rcases List.mem_append.mp hc with hc1 | hc2
      · rcases List.mem_cons.mp hc1 with rfl | hcs
        · decide
        · exact validStr_all_neutral s hv c hcs
      · rw [List.mem_singleton] at hc2
        rw [hc2]
        decide
    · intro c hc
      rw [List.cons_append, List.head?_cons, Option.mem_some_iff] at hc
      rw [← hc]
      decide
    · intro c hc
      rw [List.getLast?_concat, Option.mem_some_iff] at hc
      rw [← hc]
      decide
  | .Value (.Integer n), _, _, _ => by
    rw [show JsonNode.to_json_string (.Value (.Integer n)) = intRepr n from rfl]
    refine goodSerial_mk _ (intRepr_head_last n).2.2 ?_ (intRepr_head_last n).1
      (intRepr_head_last n).2.1
    intro c hc
    have hdig : ∀ (m : Nat), c ∈ natRepr m → neutralChar c = true := fun m hm =>
      isDigit_neutral c (List.all_eq_true.mp (natRepr_spec m).1 c hm)
    match n, hc with
    | .ofNat m, hc => exact hdig m hc
    | .negSucc m, hc =>
      rw [intRepr] at hc
      rcases List.mem_cons.mp hc with rfl | hcs
      · decide
      · exact hdig (m + 1) hcs
  | .Value (.Float f), _, hf, _ => absurd hf (by simp [noFloat])
  | .Value (.Boolean true), _, _, _ => goodSerial_of_all _ (by decide) (by decide)
  | .Value (.Boolean false), _, _, _ => goodSerial_of_all _ (by decide) (by decide)
  | .Value .Null, _, _, _ => goodSerial_of_all _ (by decide) (by decide)
  | .Array ns, h, hf, he => by
    have hch := serialElems ns h hf he
    rw [show JsonNode.to_json_string (.Array ns)
        = ('[' :: JsonNodes.joined ns) ++ [']'] from rfl, joined_eq_joinComma]
    exact goodSerial_wrap _ '[' ']' (Or.inl rfl) (Or.inl rfl)
      (joinComma_delta _ (fun s hs => (hch s hs).2.1))
      (joinComma_noTopComma _ (fun s hs => ⟨(hch s hs).2.1, (hch s hs).2.2.1⟩))
  | .Object .nil, _, _, he => absurd he (by simp [noEmptyObject])
  | .Object (.cons k v r), h, hf, he => by
    have hch := serialProps (.cons k v r) h hf he
    rw [object_to_json_string _ (fun hx => JsonProps.noConfusion hx),
      entriesJoin_eq_joinComma]
    exact goodSerial_wrap _ '{' '}' (Or.inr rfl) (Or.inr rfl)
      (joinComma_delta _ (fun s hs => (hch s hs).2.1))
      (joinComma_noTopComma _ (fun s hs => ⟨(hch s hs).2.1, (hch s hs).2.2.1⟩))

theorem serialElems : ∀ (ns : JsonNodes), validElems ns = true → noFloatElems ns = true →
    noEmptyObjectElems ns = true →
    ∀ s ∈ (JsonNodes.toList ns).map JsonNode.to_json_string, goodSerial s
  | .nil, _, _, _ => fun s hs => absurd hs (by simp [JsonNodes.toList])
  | .cons t r, h, hf, he => by
    simp only [validElems, Bool.and_eq_true] at h
    simp only [noFloatElems, Bool.and_eq_true] at hf
    simp only [noEmptyObjectElems, Bool.and_eq_true] at he
    intro s hs
    rw [show JsonNodes.toList (.cons t r) = t :: JsonNodes.toList r from rfl,
      List.map_cons] at hs
    rcases List.mem_cons.mp hs with rfl | hs2
    · exact serialNode t h.1 hf.1 he.1
    · exact serialElems r h.2 hf.2 he.2 s hs2

theorem serialProps : ∀ (ps : JsonProps), validProps ps = true → noFloatProps ps = true →
    noEmptyObjectProps ps = true →
    ∀ s ∈ (JsonProps.toList ps).map memberStr, goodSerial s
  | .nil, _, _, _ => fun s hs => absurd hs (by simp [JsonProps.toList])
  | .cons k v r, h, hf, he => by
    simp only [validProps, Bool.and_eq_true] at h
    simp only [noFloatProps, Bool.and_eq_true] at hf
    simp only [noEmptyObjectProps, Bool.and_eq_true] at he
    intro s hs
    rw [show JsonProps.toList (.cons k v r) = (k, v) :: JsonProps.toList r from rfl,
      List.map_cons] at hs
    rcases List.mem_cons.mp hs with rfl | hs2
    · exact goodSerial_member k v h.1.1 (serialNode v h.1.2 hf.1 he.1)
    · exact serialProps r h.2 hf.2 he.2 s hs2

end

theorem splitTopLevel_chunks (ss : List Str) (hne : ss ≠ [])
    (h : ∀ s ∈ ss, goodSerial s) : splitTopLevel (joinComma ss) = ss := by
  rw [splitTopLevel, splitGo_joinComma ss []
    (fun s hs => ⟨(h s hs).2.1, (h s hs).2.2.1 0 le_rfl⟩) hne, List.nil_append,
    List.map_congr_left (fun s hs => goodSerial_trim s (h s hs))]
  simp

theorem trim_joined_of_good (chunks : List Str) (hne : chunks ≠ [])
    (hch : ∀ s ∈ chunks, goodSerial s) :
    trimChars (joinComma chunks) = joinComma chunks ∧
    removeSpacesTabs (joinComma chunks) ≠ [] := by
  obtain ⟨s0, hs0mem, hs0head⟩ := joinComma_head_mem chunks hne (fun s hs => (hch s hs).1)
  obtain ⟨s1, hs1mem, hs1last⟩ := joinComma_getLast_mem chunks hne (fun s hs => (hch s hs).1)
  obtain ⟨c0, cs0, hs0⟩ := List.exists_cons_of_ne_nil (hch s0 hs0mem).1
  have hc0 : (joinComma chunks).head? = some c0 := by rw [hs0head, hs0]; rfl
  have hc0w : rustIsWhitespace c0 = false :=
    (hch s0 hs0mem).2.2.2.1 c0 (by rw [hs0]; simp)
  refine ⟨?_, removeSpacesTabs_ne_nil _ c0 hc0 hc0w⟩
  refine trimChars_eq_self _ ?_ ?_
  · intro c hc
    rw [hc0, Option.mem_some_iff] at hc
    rw [← hc]
    exact hc0w
  · intro c hc
    rw [hs1last] at hc
    exact (hch s1 hs1mem).2.2.2.2 c hc

theorem memberStr_length (kv : Str × JsonNode) :
    (memberStr kv).length = kv.1.length + (JsonNode.to_json_string kv.2).length + 3 := by
  simp only [memberStr, List.length_append, List.length_cons]
  omega

mutual

theorem roundtripN : ∀ (t : JsonNode) (q : Option Str) (b : Nat),
    validNode t = true → noFloat t = true → noEmptyObject t = true →
    (JsonNode.to_json_string t).length ≤ b →
    parse_nodeF (b + 1) (JsonNode.to_json_string t) q = .ret (.ok t)
  | .Value (.String s), q, b, h, _, _, _ => by
    rw [show JsonNode.to_json_string (.Value (.String s)) = ('"' :: s) ++ ['"'] from rfl]
    have htrim : trimChars (('"' :: s) ++ ['"']) = ('"' :: s) ++ ['"'] := by
      refine trimChars_eq_self _ ?_ ?_
      · intro c hc
        rw [List.cons_append, List.head?_cons, Option.mem_some_iff] at hc
        rw [← hc]
        decide
      · intro c hc
        rw [List.getLast?_concat, Option.mem_some_iff] at hc
        rw [← hc]
        decide
    rw [parse_nodeF, if_neg (by rw [htrim]; simp), parse_value_quoted s]
  | .Value (.Integer n), q, b, h, _, _, _ => by
    have hr : i64Min ≤ n ∧ n ≤ i64Max := by
      have h2 := h
      simp only [validNode, Bool.and_eq_true, decide_eq_true_eq] at h2
      exact h2
    rw [show JsonNode.to_json_string (.Value (.Integer n)) = intRepr n from rfl, parse_nodeF,
      if_neg (by rw [trim_intRepr]; exact (intRepr_head_last n).2.2),
      parse_value_intRepr n hr.1 hr.2]
  | .Value (.Float f), _, _, _, hf, _, _ => absurd hf (by simp [noFloat])
  | .Value (.Boolean true), q, b, _, _, _, _ => by
    rw [show JsonNode.to_json_string (.Value (.Boolean true)) = ['t', 'r', 'u', 'e'] from rfl,
      parse_nodeF, if_neg (by decide), parse_value_true]
  | .Value (.Boolean false), q, b, _, _, _, _ => by
    rw [show JsonNode.to_json_string (.Value (.Boolean false))
        = ['f', 'a', 'l', 's', 'e'] from rfl,
      parse_nodeF, if_neg (by decide), parse_value_false]
  | .Value .Null, q, b, _, _, _, _ => by
    rw [show JsonNode.to_json_string (.Value .Null) = ['n', 'u', 'l', 'l'] from rfl,
      parse_nodeF, if_neg (by decide), parse_value_null]
  | .Array ns, q, b, h, hf, he, hlen => by
    have hgood := serialNode (.Array ns) h hf he
    have htrimJ := goodSerial_trim _ hgood
    rw [show JsonNode.to_json_string (.Array ns)
        = ('[' :: JsonNodes.joined ns) ++ [']'] from rfl] at htrimJ hlen ⊢
    have hinter : ((('[' :: JsonNodes.joined ns) ++ [']']).drop 1).dropLast
        = JsonNodes.joined ns := by
      rw [List.cons_append, List.drop_one, List.tail_cons, List.dropLast_concat]
    have hvalnone : parse_value (('[' :: JsonNodes.joined ns) ++ [']']) = .ret none :=
      parse_value_none_of_bracket_head _ '[' (JsonNodes.joined ns ++ [']'])
        (by rw [htrimJ, List.cons_append]) (Or.inl rfl)
    have harr : parse_arrayCore (fun e q2 => parse_nodeF b e q2)
        (('[' :: JsonNodes.joined ns) ++ [']']) = .ret (some (.Array ns)) := by
      simp only [parse_arrayCore]
      rw [htrimJ, if_neg (by simp),
        if_pos ⟨by rw [List.cons_append, List.head?_cons], by rw [List.getLast?_concat]⟩,
        hinter]
      cases ns with
      | nil =>
        rw [show JsonNodes.joined JsonNodes.nil = ([] : Str) from rfl,
          show trimChars ([] : Str) = ([] : Str) from rfl, if_pos (show removeSpacesTabs ([] : Str) = [] from rfl)]
      | cons t0 r0 =>
        have hne : (JsonNodes.toList (.cons t0 r0)).map JsonNode.to_json_string ≠ [] := by
          rw [show JsonNodes.toList (.cons t0 r0) = t0 :: JsonNodes.toList r0 from rfl]
          simp
        have hch := serialElems (.cons t0 r0) h hf he
        have hjoin := joined_eq_joinComma (.cons t0 r0)
        have htg := trim_joined_of_good _ hne hch
        have htrimI : trimChars (JsonNodes.joined (.cons t0 r0))
            = JsonNodes.joined (.cons t0 r0) := by
          rw [hjoin]
          exact htg.1
        have hrmI : removeSpacesTabs (JsonNodes.joined (.cons t0 r0)) ≠ [] := by
          rw [hjoin]
          exact htg.2
        have hsplitI : splitTopLevel (JsonNodes.joined (.cons t0 r0))
            = (JsonNodes.toList (.cons t0 r0)).map JsonNode.to_json_string := by
          rw [hjoin]
          exact splitTopLevel_chunks _ hne hch
        have hlen2 : ∀ u ∈ JsonNodes.toList (.cons t0 r0),
            (JsonNode.to_json_string u).length < b := by
          intro u hu
          have h1 : (JsonNode.to_json_string u).length
              ≤ (JsonNodes.joined (.cons t0 r0)).length := by
            rw [hjoin]
            exact length_le_joinComma _ _ (List.mem_map_of_mem _ hu)
          have h2 := hlen
          simp only [List.length_append, List.length_cons, List.length_nil] at h2
          omega
        rw [htrimI, if_neg hrmI, hsplitI,
          roundtripE (.cons t0 r0) (('[' :: JsonNodes.joined (.cons t0 r0)) ++ [']'])
            b h hf he hlen2]
    rw [parse_nodeF, if_neg (by rw [htrimJ]; simp), hvalnone, harr]
  | .Object .nil, _, _, _, _, he, _ => absurd he (by simp [noEmptyObject])
  | .Object (.cons k v r), q, b, h, hf, he, hlen => by
    have hgood := serialNode (.Object (.cons k v r)) h hf he
    have htrimJ := goodSerial_trim _ hgood
    have hobj := object_to_json_string (.cons k v r) (fun hx => JsonProps.noConfusion hx)
    rw [hobj] at htrimJ hlen ⊢
    have hinter : ((('{' :: JsonProps.entriesJoin (.cons k v r)) ++ ['}']).drop 1).dropLast
        = JsonProps.entriesJoin (.cons k v r) := by
      rw [List.cons_append, List.drop_one, List.tail_cons, List.dropLast_concat]
    have hvalnone : parse_value (('{' :: JsonProps.entriesJoin (.cons k v r)) ++ ['}'])
        = .ret none :=
      parse_value_none_of_bracket_head _ '{' (JsonProps.entriesJoin (.cons k v r) ++ ['}'])
        (by rw [htrimJ, List.cons_append]) (Or.inr rfl)
    have harrn : parse_arrayCore (fun e q2 => parse_nodeF b e q2)
        (('{' :: JsonProps.entriesJoin (.cons k v r)) ++ ['}']) = .ret none :=
      parse_arrayCore_none_of_head _ _
        (by rw [htrimJ, List.cons_append, List.head?_cons]; decide)
    have hne : (JsonProps.toList (.cons k v r)).map memberStr ≠ [] := by
      rw [show JsonProps.toList (.cons k v r) = (k, v) :: JsonProps.toList r from rfl]
      simp
    have hch := serialProps (.cons k v r) h hf he
    have hjoin := entriesJoin_eq_joinComma (.cons k v r)
    have htg := trim_joined_of_good _ hne hch
    have htrimI : trimChars (JsonProps.entriesJoin (.cons k v r))
        = JsonProps.entriesJoin (.cons k v r) := by
      rw [hjoin]
      exact htg.1
    have hrmI : removeSpacesTabs (JsonProps.entriesJoin (.cons k v r)) ≠ [] := by
      rw [hjoin]
      exact htg.2
    have hsplitI : splitTopLevel (JsonProps.entriesJoin (.cons k v r))
        = (JsonProps.toList (.cons k v r)).map memberStr := by
      rw [hjoin]
      exact splitTopLevel_chunks _ hne hch
    have hlen2 : ∀ kv ∈ JsonProps.toList (.cons k v r),
        (JsonNode.to_json_string kv.2).length < b := by
      intro kv hkv
      have h1 : (memberStr kv).length ≤ (JsonProps.entriesJoin (.cons k v r)).length := by
        rw [hjoin]
        exact length_le_joinComma _ _ (List.mem_map_of_mem _ hkv)
      have h3 := memberStr_length kv
      have h2 := hlen
      simp only [List.length_append, List.length_cons, List.length_nil] at h2
      omega
    have hobjc : parse_objectCore (fun e q2 => parse_nodeF b e q2)
        (('{' :: JsonProps.entriesJoin (.cons k v r)) ++ ['}'])
        = .ret (some (.Object (.cons k v r))) := by
      simp only [parse_objectCore]
      rw [htrimJ, if_neg (by simp),
        if_pos ⟨by rw [List.cons_append, List.head?_cons], by rw [List.getLast?_concat]⟩,
        hinter, htrimI, if_neg hrmI, hsplitI,
        roundtripP (.cons k v r) (('{' :: JsonProps.entriesJoin (.cons k v r)) ++ ['}'])
          b h hf he hlen2]
    rw [parse_nodeF, if_neg (by rw [htrimJ]; simp), hvalnone, harrn, hobjc]

theorem roundtripE : ∀ (ns : JsonNodes) (parent : Str) (b : Nat),
    validElems ns = true → noFloatElems ns = true → noEmptyObjectElems ns = true →
    (∀ t ∈ JsonNodes.toList ns, (JsonNode.to_json_string t).length < b) →
    parseElems (fun e q => parse_nodeF b e q) parent
      ((JsonNodes.toList ns).map JsonNode.to_json_string) = .ret (some ns)
  | .nil, parent, b, _, _, _, _ => by
    rw [show JsonNodes.toList .nil = ([] : List JsonNode) from rfl, List.map_nil, parseElems]
  | .cons t r, parent, b, h, hf, he, hlen => by
    simp only [validElems, Bool.and_eq_true] at h
    simp only [noFloatElems, Bool.and_eq_true] at hf
    simp only [noEmptyObjectElems, Bool.and_eq_true] at he
    have hmem : t ∈ JsonNodes.toList (.cons t r) := by
      rw [show JsonNodes.toList (.cons t r) = t :: JsonNodes.toList r from rfl]
      simp
    have hlt := hlen t hmem
    have hgood := serialNode t h.1 hf.1 he.1
    have htrim := goodSerial_trim _ hgood
    have hchild : parse_nodeF b (JsonNode.to_json_string t) (some parent)
        = .ret (.ok t) := by
      rw [parse_nodeF_irrel (JsonNode.to_json_string t).length _ le_rfl b
        ((JsonNode.to_json_string t).length + 1) (some parent) hlt (by omega)]
      exact roundtripN t (some parent) (JsonNode.to_json_string t).length h.1 hf.1 he.1
        le_rfl
    rw [show JsonNodes.toList (.cons t r) = t :: JsonNodes.toList r from rfl, List.map_cons]
    simp only [parseElems]
    rw [htrim, hchild,
      roundtripE r parent b h.2 hf.2 he.2 (fun u hu => hlen u (by
        rw [show JsonNodes.toList (.cons t r) = t :: JsonNodes.toList r from rfl]
        simp [hu]))]

theorem roundtripP : ∀ (ps : JsonProps) (parent : Str) (b : Nat),
    validProps ps = true → noFloatProps ps = true → noEmptyObjectProps ps = true →
    (∀ kv ∈ JsonProps.toList ps, (JsonNode.to_json_string kv.2).length < b) →
    parseMembers (fun e q => parse_nodeF b e q) parent
      ((JsonProps.toList ps).map memberStr) = .ret ps
  | .nil, parent, b, _, _, _, _ => by
    rw [show JsonProps.toList .nil = ([] : List (Str × JsonNode)) from rfl, List.map_nil,
      parseMembers]
  | .cons k v r, parent, b, h, hf, he, hlen => by
    simp only [validProps, Bool.and_eq_true] at h
    simp only [noFloatProps, Bool.and_eq_true] at hf
    simp only [noEmptyObjectProps, Bool.and_eq_true] at he
    have hgood := serialNode v h.1.2 hf.1 he.1
    have hmgood := goodSerial_member k v h.1.1 hgood
    have htrim := goodSerial_trim _ hmgood
    have hmem : (k, v) ∈ JsonProps.toList (.cons k v r) := by
      rw [show JsonProps.toList (.cons k v r) = (k, v) :: JsonProps.toList r from rfl]
      simp
    have hlt : (JsonNode.to_json_string v).length < b := hlen (k, v) hmem
    have hcolon : (':' : Char) ∉ ('"' :: k) ++ ['"'] := by
      intro hcm
      rcases List.mem_append.mp hcm with h1 | h2
      · rcases List.mem_cons.mp h1 with hq | hks
        · exact absurd hq (by decide)
        · have hvk := h.1.1
          simp only [validStr, List.all_eq_true] at hvk
          exact absurd (hvk ':' hks) (by decide)
      · rw [List.mem_singleton] at h2
        exact absurd h2 (by decide)
    have hsplit : splitOnce (memberStr (k, v)) ':'
        = some (('"' :: k) ++ ['"'], JsonNode.to_json_string v) := by
      rw [show memberStr (k, v)
          = (('"' :: k) ++ ['"']) ++ ':' :: JsonNode.to_json_string v from by
        simp [memberStr]]
      exact splitOnce_append _ ':' _ hcolon
    have hchild : parse_nodeF b (JsonNode.to_json_string v) (some parent)
        = .ret (.ok v) := by
      rw [parse_nodeF_irrel (JsonNode.to_json_string v).length _ le_rfl b
        ((JsonNode.to_json_string v).length + 1) (some parent) hlt (by omega)]
      exact roundtripN v (some parent) (JsonNode.to_json_string v).length h.1.2 hf.1 he.1
        le_rfl
    have hkey : (((('"' :: k) ++ ['"']).drop 1).dropLast) = k := by
      rw [List.cons_append, List.drop_one, List.tail_cons, List.dropLast_concat]
    rw [show JsonProps.toList (.cons k v r) = (k, v) :: JsonProps.toList r from rfl,
      List.map_cons]
    simp only [parseMembers]
    rw [htrim, hsplit]
    dsimp only
    rw [if_neg (by simp only [List.length_append, List.length_cons, List.length_nil]; omega),
      hchild,
      roundtripP r parent b h.2 hf.2 he.2 (fun kv hkv => hlen kv (by
        rw [show JsonProps.toList (.cons k v r) = (k, v) :: JsonProps.toList r from rfl]
        simp [hkv])),
      hkey]

end

/-- Claim C1, amended: the parse/serialize round-trip
`parse (t.to_json_string) = Ok t` holds for every tree built purely from
valid, non-escaping input (no quotes, commas, colons, braces or brackets
inside string values or property names; integers in `i64` range) that
contains no `Float` leaf and no empty `Object` subtree.  The two exclusions
are forced by the code: an empty object serializes to the one-character
string `}` (the unconditional `pop` of `JsonPropertyMap::to_json_string`
eats the opening brace), which no longer parses, and an integral-valued
float such as `1.0` serializes to `1` (Rust `Display` for `f64`) and
reparses as an `Integer`.  Empty arrays round-trip fine. -/
theorem c1_roundtrip_amended (t : JsonNode) (h1 : validNode t = true)
    (h2 : noFloat t = true) (h3 : noEmptyObject t = true) :
    JsonNode.parse (JsonNode.to_json_string t) = .ret (.ok t) := by
  unfold JsonNode.parse parse_node
  exact roundtripN t none (JsonNode.to_json_string t).length h1 h2 h3 le_rfl

/-- Witness for the amended C1 at the nested tree
`{"a":[1,"x",true,null],"b":{"c":-5,"d":[2]}}`. -/
theorem c1_roundtrip_amended_witness :
    validNode sampleTree = true ∧ noFloat sampleTree = true ∧
    noEmptyObject sampleTree = true ∧
    JsonNode.parse (JsonNode.to_json_string sampleTree) = .ret (.ok sampleTree) :=
  ⟨by decide, by decide, by decide,
    c1_roundtrip_amended sampleTree (by decide) (by decide) (by decide)⟩

/-- Counterexamples to C1 as stated (which includes the empty-object case
and, via "any tree built from valid input", trees with `Float` leaves such
as the value of `1.0`): the empty object serializes to `}` and comes back
as a `CouldntParseNode` error, and `Float 1` serializes to `1` and comes
back as `Integer 1`, not a structurally equal tree. -/
theorem c1_counterexample :
    JsonNode.to_json_string (.Object .nil) = ['}'] ∧
    JsonNode.parse (JsonNode.to_json_string (.Object .nil))
      = .ret (.error (.CouldntParseNode ['}'])) ∧
    JsonNode.to_json_string (.Value (.Float (.finite 1))) = ['1'] ∧
    JsonNode.parse (JsonNode.to_json_string (.Value (.Float (.finite 1))))
      = .ret (.ok (.Value (.Integer 1))) :=
  ⟨by decide, by decide, by decide, by decide⟩
